import Mathlib

/-!
Verification of the size-balanced tree implementation in src/sb_tree.h
(class template sb_tree and its iterators).

Shallow embedding conventions:

* A tree node (sb_tree_node) holds left child, payload, a stored size
  field, and right child.  Parent pointers are not represented
  explicitly; instead a node is addressed by the path of child steps
  from the root (false = left, true = right), which is a faithful
  identity for nodes, and the parent-pointer climbs of the C++ code are
  rendered as recursion on such paths.

* The header/sentinel node of the C++ code is represented implicitly:
  header->parent is the root tree itself, header->left / header->right
  are the leftmost / rightmost paths, and the header as an iterator
  position is the dedicated value for the one-past-the-end position.

* The comparator is a strict order (LinearOrder, matching the default
  std::less instantiation); comp a b is a < b.

* The recursions of insert_rebalance / erase_rebalance are not
  structurally decreasing, so they take an explicit fuel argument;
  every call site passes (stored size + 1), which suffices for the
  recursion depth that actually occurs (the recursion only re-enters
  the subtree just rotated).  All fuel values yield the same in-order
  sequence, stored-size total and size-field consistency, which is what
  the sequence-level theorems rest on.

* In the C++ code, the rebalancing climb of an insertion whose attach
  parent is the root, and of every erase, ends by passing the header
  itself to the rebalance routine (do/while in insert_equal_node, the
  final loop iteration in erase_node).  On the header this call reads
  header->left / header->right (the extreme nodes) as if they were
  children; for every tree satisfying the §3 weight invariant the
  rotation conditions are then false and the call is the identity, so
  the embedding renders those header calls as the identity, and renders
  the second iteration of the insertion do/while loop (which rebalances
  the root with a false flag) explicitly in the insert wrappers.
-/

set_option maxHeartbeats 1000000
set_option linter.unusedSectionVars false

namespace SbTree

/-- Node shape of sb_tree_node<T>: left child, payload, stored size
field, right child.  nil is the null pointer. -/
inductive STree (α : Type) where
  | nil : STree α
  | node (l : STree α) (v : α) (sz : Nat) (r : STree α) : STree α
deriving Repr, DecidableEq

namespace STree

variable {α : Type} [LinearOrder α]

/-- Stored size of a possibly-null node: t ? t->size : 0. -/
def size0 : STree α → Nat
  | nil => 0
  | node _ _ sz _ => sz

/-- In-order sequence of payloads. -/
def inorder : STree α → List α
  | nil => []
  | node l v _ r => inorder l ++ v :: inorder r

/-- The size field of every node equals left size + right size + 1
(empty subtrees counting 0): first half of the §3 invariant. -/
def sizesOkB : STree α → Bool
  | nil => true
  | node l _ sz r => sz == size0 l + size0 r + 1 && sizesOkB l && sizesOkB r

/-- The §3 weight-balance inequalities at every node:
size(t.left) >= size(t.right.left), size(t.left) >= size(t.right.right)
and symmetrically. -/
def balancedB : STree α → Bool
  | nil => true
  | node l _ _ r =>
      (match r with
       | nil => true
       | node rl _ _ rr => size0 rl ≤ size0 l && size0 rr ≤ size0 l) &&
      (match l with
       | nil => true
       | node ll _ _ lr => size0 ll ≤ size0 r && size0 lr ≤ size0 r) &&
      balancedB l && balancedB r

/-- left_rotate (sb_tree.h lines 1485-1503): pointer surgery plus the
two size-field updates r->size = t->size and the recomputation of
t->size from its new children. -/
def left_rotate : STree α → STree α
  | node l v sz (node rl rv _ rr) =>
      node (node l v (size0 l + size0 rl + 1) rl) rv sz rr
  | t => t

/-- right_rotate (sb_tree.h lines 1505-1523). -/
def right_rotate : STree α → STree α
  | node (node ll lv _ lr) v sz r =>
      node ll lv sz (node lr v (size0 lr + size0 r + 1) r)
  | t => t

/-- insert_rebalance (sb_tree.h lines 1525-1574), with explicit fuel
for the non-structural recursion.  flag says the structural change
arrived through the right child. -/
def insert_rebalance : Nat → STree α → Bool → STree α
  | 0, t, _ => t
  | _ + 1, nil, _ => nil
  | fuel + 1, node l v sz r, true =>
      match r with
      | nil => node l v sz nil
      | node rl rv rsz rr =>
          if rl ≠ nil ∧ size0 l < size0 rl then
            match left_rotate (node l v sz (right_rotate (node rl rv rsz rr))) with
            | node l2 v2 s2 r2 =>
                insert_rebalance fuel
                  (node (insert_rebalance fuel l2 false) v2 s2
                        (insert_rebalance fuel r2 true)) true
            | nil => nil
          else if rr ≠ nil ∧ size0 l < size0 rr then
            match left_rotate (node l v sz (node rl rv rsz rr)) with
            | node l2 v2 s2 r2 =>
                insert_rebalance fuel
                  (node (insert_rebalance fuel l2 false) v2 s2 r2) true
            | nil => nil
          else node l v sz (node rl rv rsz rr)
  | fuel + 1, node l v sz r, false =>
      match l with
      | nil => node nil v sz r
      | node ll lv lsz lr =>
          if lr ≠ nil ∧ size0 r < size0 lr then
            match right_rotate (node (left_rotate (node ll lv lsz lr)) v sz r) with
            | node l2 v2 s2 r2 =>
                insert_rebalance fuel
                  (node (insert_rebalance fuel l2 false) v2 s2
                        (insert_rebalance fuel r2 true)) false
            | nil => nil
          else if ll ≠ nil ∧ size0 r < size0 ll then
            match right_rotate (node (node ll lv lsz lr) v sz r) with
            | node l2 v2 s2 r2 =>
                insert_rebalance fuel
                  (node l2 v2 s2 (insert_rebalance fuel r2 true)) false
            | nil => nil
          else node (node ll lv lsz lr) v sz r

/-- erase_rebalance (sb_tree.h lines 1576-1625).  Textually it is
insert_rebalance with every flag negated, which the lemma
erase_rebalance_eq below verifies. -/
def erase_rebalance : Nat → STree α → Bool → STree α
  | 0, t, _ => t
  | _ + 1, nil, _ => nil
  | fuel + 1, node l v sz r, false =>
      match r with
      | nil => node l v sz nil
      | node rl rv rsz rr =>
          if rl ≠ nil ∧ size0 l < size0 rl then
            match left_rotate (node l v sz (right_rotate (node rl rv rsz rr))) with
            | node l2 v2 s2 r2 =>
                erase_rebalance fuel
                  (node (erase_rebalance fuel l2 true) v2 s2
                        (erase_rebalance fuel r2 false)) false
            | nil => nil
          else if rr ≠ nil ∧ size0 l < size0 rr then
            match left_rotate (node l v sz (node rl rv rsz rr)) with
            | node l2 v2 s2 r2 =>
                erase_rebalance fuel
                  (node (erase_rebalance fuel l2 true) v2 s2 r2) false
            | nil => nil
          else node l v sz (node rl rv rsz rr)
  | fuel + 1, node l v sz r, true =>
      match l with
      | nil => node nil v sz r
      | node ll lv lsz lr =>
          if lr ≠ nil ∧ size0 r < size0 lr then
            match right_rotate (node (left_rotate (node ll lv lsz lr)) v sz r) with
            | node l2 v2 s2 r2 =>
                erase_rebalance fuel
                  (node (erase_rebalance fuel l2 true) v2 s2
                        (erase_rebalance fuel r2 false)) true
            | nil => nil
          else if ll ≠ nil ∧ size0 r < size0 ll then
            match right_rotate (node (node ll lv lsz lr) v sz r) with
            | node l2 v2 s2 r2 =>
                erase_rebalance fuel
                  (node l2 v2 s2 (erase_rebalance fuel r2 false)) true
            | nil => nil
          else node (node ll lv lsz lr) v sz r

/-- Rebalance entry point used by the insertion climb; the fuel
size0 t + 1 covers the recursion depth that occurs on the calls the
algorithm makes. -/
def rebalI (t : STree α) (flag : Bool) : STree α :=
  insert_rebalance (size0 t + 1) t flag

/-- Rebalance entry point used by the deletion climb. -/
def rebalE (t : STree α) (flag : Bool) : STree α :=
  erase_rebalance (size0 t + 1) t flag

/-- Descent loop of insert_equal_node (sb_tree.h lines 1198-1264) below
the root.  Every visited node gets ++t->size; reaching a null edge
attaches the new node (with size 1); the do/while climb then calls
insert_rebalance(t->parent, t == t->parent->right) once per ancestor of
the attach parent, which is this recursion applied on unwinding, with
the flag recording which child the climb arrived from. -/
def insert_equal_go (x : α) : STree α → STree α
  | nil => node nil x 1 nil
  | node l v sz r =>
      if x < v then
        match l with
        | nil => node (node nil x 1 nil) v (sz + 1) r
        | node _ _ _ _ => rebalI (node (insert_equal_go x l) v (sz + 1) r) false
      else
        match r with
        | nil => node l v (sz + 1) (node nil x 1 nil)
        | node _ _ _ _ => rebalI (node l v (sz + 1) (insert_equal_go x r)) true

/-- insert_equal_node (sb_tree.h lines 1198-1264).  An empty tree gets
the new node as root with no rebalancing.  When the attach parent is
the root itself, the do/while loop first passes the header to
insert_rebalance (identity, see the header discussion above) and then
rebalances the root with a false flag, rendered here explicitly. -/
def insert_equal_node (x : α) : STree α → STree α
  | nil => node nil x 1 nil
  | node l v sz r =>
      if x < v then
        match l with
        | nil => rebalI (node (node nil x 1 nil) v (sz + 1) r) false
        | node _ _ _ _ => rebalI (node (insert_equal_go x l) v (sz + 1) r) false
      else
        match r with
        | nil => rebalI (node l v (sz + 1) (node nil x 1 nil)) false
        | node _ _ _ _ => rebalI (node l v (sz + 1) (insert_equal_go x r)) true

/-- Descent loop of insert_unique_node (sb_tree.h lines 1266-1351)
below the root; returns the updated tree and whether a node was
created.  On finding an existing equivalent node (neither-less-than in
both directions) it returns the tree unchanged with false; size
increments happen only after the new key is confirmed new, which on
this functional rendering is the same +1 bookkeeping on the unwound
path. -/
def insert_unique_go (x : α) : STree α → STree α × Bool
  | nil => (node nil x 1 nil, true)
  | node l v sz r =>
      if x < v then
        match l with
        | nil => (node (node nil x 1 nil) v (sz + 1) r, true)
        | node _ _ _ _ =>
            match insert_unique_go x l with
            | (_, false) => (node l v sz r, false)
            | (l2, true) => (rebalI (node l2 v (sz + 1) r) false, true)
      else
        if ¬ v < x then (node l v sz r, false)
        else
          match r with
          | nil => (node l v (sz + 1) (node nil x 1 nil), true)
          | node _ _ _ _ =>
              match insert_unique_go x r with
              | (_, false) => (node l v sz r, false)
              | (r2, true) => (rebalI (node l v (sz + 1) r2) true, true)

/-- insert_unique_node (sb_tree.h lines 1266-1351): returns the new
tree, the payload of the returned node (the existing node on failure,
the created node on success) and the success flag of the returned
std::pair. -/
def insert_unique_node (x : α) : STree α → STree α × α × Bool
  | nil => (node nil x 1 nil, x, true)
  | node l v sz r =>
      if x < v then
        match l with
        | nil => (rebalI (node (node nil x 1 nil) v (sz + 1) r) false, x, true)
        | node _ _ _ _ =>
            match insert_unique_go x l with
            | (_, false) => (node l v sz r, x, false)
            | (l2, true) => (rebalI (node l2 v (sz + 1) r) false, x, true)
      else
        if ¬ v < x then (node l v sz r, x, false)
        else
          match r with
          | nil => (rebalI (node l v (sz + 1) (node nil x 1 nil)) false, x, true)
          | node _ _ _ _ =>
              match insert_unique_go x r with
              | (_, false) => (node l v sz r, x, false)
              | (r2, true) => (rebalI (node l v (sz + 1) r2) true, x, true)

/-- Two-children erase, smaller-right branch of erase_node (sb_tree.h
lines 1391-1421): detach the leftmost node of the given subtree,
decrementing the size of every node on the way (the for loop over
x->parent .. ), and rebalance each of those nodes bottom-up as the
erase_rebalance climb does, with a false flag because the removed node
hangs off a left edge. -/
def del_leftmost : STree α → Option (α × STree α)
  | nil => none
  | node nil v _ r => some (v, r)
  | node (node ll lv lsz lr) v sz r =>
      match del_leftmost (node ll lv lsz lr) with
      | none => none
      | some (x, l2) => some (x, rebalE (node l2 v (sz - 1) r) false)

/-- Mirror of del_leftmost for the smaller-left branch (sb_tree.h lines
1422-1452): detach the rightmost node, true flags on the climb. -/
def del_rightmost : STree α → Option (α × STree α)
  | nil => none
  | node l v _ nil => some (v, l)
  | node l v sz (node rl rv rsz rr) =>
      match del_rightmost (node rl rv rsz rr) with
      | none => none
      | some (x, r2) => some (x, rebalE (node l v (sz - 1) r2) true)

/-- erase_node (sb_tree.h lines 1353-1460) on the node addressed by the
given path.  The size decrements along the path and the bottom-up
erase_rebalance climb (first call at the removed node's parent with the
flag recording which child it was, then one call per ancestor) are the
rebalE applications on unwinding; a node with at most one child is
replaced by that child; a node with two children is replaced by the
leftmost node of the right subtree when size(left) < size(right)
(t->left->size < t->right->size) and by the rightmost node of the left
subtree otherwise, the replacement inheriting the erased node's
remaining child and size. -/
def erase_at : STree α → List Bool → STree α
  | nil, _ => nil
  | node l v sz r, false :: p => rebalE (node (erase_at l p) v (sz - 1) r) false
  | node l v sz r, true :: p => rebalE (node l v (sz - 1) (erase_at r p)) true
  | node nil _ _ r, [] => r
  | node l _ _ nil, [] => l
  | node l _ sz r, [] =>
      if size0 l < size0 r then
        match del_leftmost r with
        | some (x, r2) => rebalE (node l x (sz - 1) r2) true
        | none => nil
      else
        match del_rightmost l with
        | some (x, l2) => rebalE (node l2 x (sz - 1) r) false
        | none => nil

/-- Splice-only variant of del_leftmost: the pointer surgery and size
decrements of erase_node before any "rebalance after deletion" call. -/
def del_leftmost_s : STree α → Option (α × STree α)
  | nil => none
  | node nil v _ r => some (v, r)
  | node (node ll lv lsz lr) v sz r =>
      match del_leftmost_s (node ll lv lsz lr) with
      | none => none
      | some (x, l2) => some (x, node l2 v (sz - 1) r)

/-- Splice-only variant of del_rightmost. -/
def del_rightmost_s : STree α → Option (α × STree α)
  | nil => none
  | node l v _ nil => some (v, l)
  | node l v sz (node rl rv rsz rr) =>
      match del_rightmost_s (node rl rv rsz rr) with
      | none => none
      | some (x, r2) => some (x, node l v (sz - 1) r2)

/-- The state of erase_node right before its "rebalance after
deletion" climb: all pointer surgery and size decrements done, no
rotation yet.  The root of the [] case subtree is the replacement node
spliced into the erased node's position. -/
def splice_at : STree α → List Bool → STree α
  | nil, _ => nil
  | node l v sz r, false :: p => node (splice_at l p) v (sz - 1) r
  | node l v sz r, true :: p => node l v (sz - 1) (splice_at r p)
  | node nil _ _ r, [] => r
  | node l _ _ nil, [] => l
  | node l _ sz r, [] =>
      if size0 l < size0 r then
        match del_leftmost_s r with
        | some (x, r2) => node l x (sz - 1) r2
        | none => nil
      else
        match del_rightmost_s l with
        | some (x, l2) => node l2 x (sz - 1) r
        | none => nil

/-- leftmost (sb_tree.h lines 996-1001) as the value reached by
descending left edges. -/
def leftmostVal : STree α → Option α
  | nil => none
  | node nil v _ _ => some v
  | node (node ll lv lsz lr) _ _ _ => leftmostVal (node ll lv lsz lr)

/-- rightmost (sb_tree.h lines 1003-1008). -/
def rightmostVal : STree α → Option α
  | nil => none
  | node _ v _ nil => some v
  | node _ _ _ (node rl rv rsz rr) => rightmostVal (node rl rv rsz rr)

/-- Payload at the root, None for the null tree. -/
def rootVal : STree α → Option α
  | nil => none
  | node _ v _ _ => some v

/-- Left child of the root. -/
def leftT : STree α → STree α
  | nil => nil
  | node l _ _ _ => l

/-- Right child of the root. -/
def rightT : STree α → STree α
  | nil => nil
  | node _ _ _ r => r

/-- lower_bound_node (sb_tree.h lines 1051-1067) returning the path of
the result node, none standing for the header. -/
def lbPath : STree α → α → Option (List Bool)
  | nil, _ => none
  | node l v _ r, key =>
      if v < key then
        match lbPath r key with
        | some p => some (true :: p)
        | none => none
      else
        match lbPath l key with
        | some p => some (false :: p)
        | none => some []

/-- upper_bound_node (sb_tree.h lines 1069-1085) as a path. -/
def ubPath : STree α → α → Option (List Bool)
  | nil, _ => none
  | node l v _ r, key =>
      if key < v then
        match ubPath l key with
        | some p => some (false :: p)
        | none => some []
      else
        match ubPath r key with
        | some p => some (true :: p)
        | none => none

/-- erase(key) (sb_tree.h lines 906-918): first = lower_bound(key),
last = upper_bound(key); while first != last erase first and step to
its successor.  Each erased node is the then-current lower_bound node
(the first element not less than key), and the loop guard first ==
last compares node identity, which on paths is path equality; the
stored size of the tree bounds the iteration count. -/
def erase_key_go : Nat → STree α → α → STree α × Nat
  | 0, t, _ => (t, 0)
  | fuel + 1, t, key =>
      if lbPath t key = ubPath t key then (t, 0)
      else
        match lbPath t key with
        | some p =>
            match erase_key_go fuel (erase_at t p) key with
            | (t2, n) => (t2, n + 1)
        | none => (t, 0)

/-- erase(key): bulk erase returning the count removed. -/
def erase_key (t : STree α) (key : α) : STree α × Nat :=
  erase_key_go (size0 t) t key

/-- select_node (sb_tree.h lines 1087-1104): 0-indexed order statistic
driven by the stored sizes; the header (none) when the descent runs off
the tree. -/
def select_node : STree α → Nat → Option α
  | nil, _ => none
  | node l v _ r, k =>
      if size0 l < k then select_node r (k - (size0 l + 1))
      else if k < size0 l then select_node l k
      else some v

/-- Path-returning variant of select_node, used to address the node an
iterator obtained from select points to. -/
def selPath : STree α → Nat → Option (List Bool)
  | nil, _ => none
  | node l _ _ r, k =>
      if size0 l < k then
        match selPath r (k - (size0 l + 1)) with
        | some p => some (true :: p)
        | none => none
      else if k < size0 l then
        match selPath l k with
        | some p => some (false :: p)
        | none => none
      else some []

/-- The descent shared by find_node / rank_node (sb_tree.h lines
1031-1049 and 1106-1128): accumulated rank (left size + 1 at each right
turn) and the payload of the last node that compared not-less than the
key (pre), none when pre is still the header. -/
def rankGo : STree α → α → Nat × Option α
  | nil, _ => (0, none)
  | node l v _ r, key =>
      if v < key then
        match rankGo r key with
        | (rk, pre) => (size0 l + 1 + rk, pre)
      else
        match rankGo l key with
        | (rk, pre) => (rk, match pre with | some w => some w | none => some v)

/-- rank_node (sb_tree.h lines 1106-1128): none models the
static_cast<size_type>(-1) "not present" sentinel, returned when pre is
the header or compares greater than the key. -/
def rank_node (t : STree α) (key : α) : Option Nat :=
  match rankGo t key with
  | (_, none) => none
  | (rk, some pv) => if key < pv then none else some rk

/-- find_node (sb_tree.h lines 1031-1049): the lower-bound descent,
then not-found if the candidate is the header or its payload compares
greater than the key. -/
def find_node (t : STree α) (key : α) : Option α :=
  match rankGo t key with
  | (_, none) => none
  | (_, some pv) => if key < pv then none else some pv

/-- Failure conditions of bounds-checked access (sb_tree.h lines
793-812): std::domain_error(SBT_NOT_INITIALIZED) on an empty container,
std::out_of_range(SBT_OUT_OF_RANGE) when find returns end(). -/
inductive AtErr where
  | uninitialized : AtErr
  | outOfRange : AtErr
deriving Repr, DecidableEq

/-- at(key) (sb_tree.h lines 793-812): throw domain_error if empty();
find(key); throw out_of_range if it returned end(); otherwise the found
element. -/
def atKey (t : STree α) (key : α) : Except AtErr α :=
  match t with
  | nil => Except.error AtErr.uninitialized
  | node _ _ _ _ =>
      match find_node t key with
      | none => Except.error AtErr.outOfRange
      | some v => Except.ok v

/-- Subtree reached by following a path of child steps (false = left,
true = right); none when the path walks off the tree. -/
def subtreeAt : STree α → List Bool → Option (STree α)
  | t, [] => some t
  | nil, _ :: _ => none
  | node l _ _ _, false :: p => subtreeAt l p
  | node _ _ _ r, true :: p => subtreeAt r p

/-- Payload of the node at a path. -/
def valueAt (t : STree α) (p : List Bool) : Option α :=
  match subtreeAt t p with
  | some (node _ v _ _) => some v
  | _ => none

/-- In-order index of the node at a path (meaningless off the tree). -/
def pathIdx : STree α → List Bool → Nat
  | nil, _ => 0
  | node l _ _ _, [] => (inorder l).length
  | node l _ _ _, false :: p => pathIdx l p
  | node l _ _ r, true :: p => (inorder l).length + 1 + pathIdx r p

/-- Path of left steps to the leftmost node: the descent of
leftmost(t), and the position header->left points to. -/
def leftSpine : STree α → List Bool
  | nil => []
  | node nil _ _ _ => []
  | node (node ll lv lsz lr) _ _ _ => false :: leftSpine (node ll lv lsz lr)

/-- Path of right steps to the rightmost node (header->right). -/
def rightSpine : STree α → List Bool
  | nil => []
  | node _ _ _ nil => []
  | node _ _ _ (node rl rv rsz rr) => true :: rightSpine (node rl rv rsz rr)

/-- operator++ of sb_tree_iterator (sb_tree.h lines 176-196) on paths:
with a right child, descend to its leftmost node; otherwise the code
climbs parents while the node is a right child and stops at the parent
reached from a left child, or at the header (none, one past the end)
when the climb consumes the whole path.  The parent climb is the none
propagation of this recursion. -/
def succPath : STree α → List Bool → Option (List Bool)
  | nil, _ => none
  | node _ _ _ r, [] =>
      match r with
      | nil => none
      | node rl rv rsz rr => some (true :: leftSpine (node rl rv rsz rr))
  | node l _ _ _, false :: p =>
      match succPath l p with
      | some q => some (false :: q)
      | none => some []
  | node _ _ _ r, true :: p =>
      match succPath r p with
      | some q => some (true :: q)
      | none => none

/-- begin() (header->left): the leftmost path, or the header itself
(none) on an empty tree. -/
def startPos : STree α → Option (List Bool)
  | nil => none
  | node l v sz r => some (leftSpine (node l v sz r))

/-- Repeated application of operator++ from a position, collecting the
visited payloads; the fuel only bounds the iteration count of this
model (the visit count of a full traversal is the element count). -/
def walkFrom : Nat → STree α → Option (List Bool) → List α
  | 0, _, _ => []
  | _ + 1, _, none => []
  | fuel + 1, t, some p =>
      match valueAt t p with
      | none => []
      | some v => v :: walkFrom fuel t (succPath t p)

/-- Traversal from begin() to end() by repeated operator++. -/
def walkAll (t : STree α) : List α :=
  walkFrom (inorder t).length t (startPos t)

/-- An iterator position: a real node (by path), the header (end()),
or a null node pointer (reachable only through the operator-- defect
recorded for claim C7). -/
inductive IterPos where
  | posOf (p : List Bool) : IterPos
  | atEnd : IterPos
  | nullPtr : IterPos
deriving Repr, DecidableEq

/-- Parent climb of operator-- (sb_tree.h lines 209-218) together with
the left-child descent (lines 202-208), on nonempty paths: with a left
child, descend to its rightmost node; otherwise climb while the node is
a left child; reaching the header yields none. -/
def predPathAux : STree α → List Bool → Option (List Bool)
  | nil, _ => none
  | node l _ _ _, [] =>
      match l with
      | nil => none
      | node ll lv lsz lr => some (false :: rightSpine (node ll lv lsz lr))
  | node _ _ _ r, true :: p =>
      match predPathAux r p with
      | some q => some (true :: q)
      | none => some []
  | node l _ _ _, false :: p =>
      match predPathAux l p with
      | some q => some (false :: q)
      | none => none

/-- operator-- of sb_tree_iterator (sb_tree.h lines 198-220).  The
guard (!node->parent || node->parent->parent == node) is true of the
header and of the root of any nonempty tree (header and root are each
other's parent), and then the iterator is set to node->right: for the
header that is header->right, the rightmost node; for the root it is
the root's right child (a null pointer when the root has none). -/
def predStep (t : STree α) : IterPos → IterPos
  | IterPos.nullPtr => IterPos.nullPtr
  | IterPos.atEnd =>
      match t with
      | nil => IterPos.atEnd
      | node l v sz r => IterPos.posOf (rightSpine (node l v sz r))
  | IterPos.posOf [] =>
      match t with
      | node _ _ _ (node _ _ _ _) => IterPos.posOf [true]
      | _ => IterPos.nullPtr
  | IterPos.posOf (d :: p) =>
      match predPathAux t (d :: p) with
      | some q => IterPos.posOf q
      | none => IterPos.atEnd

/-- erase(const_iterator pos) (sb_tree.h lines 886-895): next starts at
pos; only when pos != cend() is next incremented and the node erased;
the returned iterator is next. -/
def erase_pos (t : STree α) (pos : Option (List Bool)) :
    STree α × Option (List Bool) :=
  match pos with
  | none => (t, none)
  | some p =>
      match valueAt t p with
      | none => (t, none)
      | some _ => (erase_at t p, succPath t p)

/-- One mutating operation of the public interface. -/
inductive SOp (α : Type) where
  | insE (x : α) : SOp α
  | insU (x : α) : SOp α
  | delK (x : α) : SOp α
  | delI (k : Nat) : SOp α

/-- Apply one operation: insert_equal, insert_unique, erase by key, or
erase by iterator (the iterator obtained from select(k)). -/
def applyOp (t : STree α) : SOp α → STree α
  | SOp.insE x => insert_equal_node x t
  | SOp.insU x => (insert_unique_node x t).1
  | SOp.delK x => (erase_key t x).1
  | SOp.delI k =>
      match selPath t k with
      | some p => erase_at t p
      | none => t

/-- The tree built by a sequence of operations starting from the empty
tree (the state right after construction). -/
def runOps (ops : List (SOp α)) : STree α :=
  ops.foldl applyOp nil

/-- List-level description of equal insertion: the new value goes
after every element not greater than it (the descent goes right
whenever the comparator does not order the new value strictly before
the current node, so a duplicate lands after the existing run). -/
def upInsert (x : α) : List α → List α
  | [] => [x]
  | y :: ys => if x < y then x :: y :: ys else y :: upInsert x ys

/-- The tree built by equal-inserting 2, then 1, then 3 into an empty
tree: root 2 with left child 1 and right child 3, each subtree of size
1. -/
def T123 : STree Nat := runOps [SOp.insE 2, SOp.insE 1, SOp.insE 3]

/-! ### Rotations preserve the in-order sequence, the root size field
and size-field consistency -/

theorem inorder_left_rotate (t : STree α) :
    inorder (left_rotate t) = inorder t := by
  cases t with
  | nil => rfl
  | node l v sz r =>
    cases r with
    | nil => rfl
    | node rl rv rsz rr => simp [left_rotate, inorder]

theorem inorder_right_rotate (t : STree α) :
    inorder (right_rotate t) = inorder t := by
  cases t with
  | nil => rfl
  | node l v sz r =>
    cases l with
    | nil => rfl
    | node ll lv lsz lr => simp [right_rotate, inorder]

theorem size0_left_rotate (t : STree α) :
    size0 (left_rotate t) = size0 t := by
  cases t with
  | nil => rfl
  | node l v sz r =>
    cases r with
    | nil => rfl
    | node rl rv rsz rr => rfl

theorem size0_right_rotate (t : STree α) :
    size0 (right_rotate t) = size0 t := by
  cases t with
  | nil => rfl
  | node l v sz r =>
    cases l with
    | nil => rfl
    | node ll lv lsz lr => rfl

theorem sizesOkB_left_rotate {t : STree α} (h : sizesOkB t = true) :
    sizesOkB (left_rotate t) = true := by
  cases t with
  | nil => exact h
  | node l v sz r =>
    cases r with
    | nil => exact h
    | node rl rv rsz rr =>
      simp only [left_rotate, sizesOkB, size0, Bool.and_eq_true, beq_iff_eq] at h ⊢
      exact ⟨⟨by omega, ⟨trivial, h.1.2⟩, h.2.1.2⟩, h.2.2⟩

theorem sizesOkB_right_rotate {t : STree α} (h : sizesOkB t = true) :
    sizesOkB (right_rotate t) = true := by
  cases t with
  | nil => exact h
  | node l v sz r =>
    cases l with
    | nil => exact h
    | node ll lv lsz lr =>
      simp only [right_rotate, sizesOkB, size0, Bool.and_eq_true, beq_iff_eq] at h ⊢
      obtain ⟨⟨hsz, ⟨hlsz, hll⟩, hlr⟩, hr⟩ := h
      exact ⟨⟨by omega, hll⟩, ⟨trivial, hlr⟩, hr⟩

/-! ### erase_rebalance is insert_rebalance with the flag negated -/

theorem erase_rebalance_eq (f : Nat) (t : STree α) (b : Bool) :
    erase_rebalance f t b = insert_rebalance f t (!b) := by
  induction f generalizing t b with
  | zero => rfl
  | succ n ih =>
    cases t with
    | nil => cases b <;> rfl
    | node l v sz r =>
      cases b with
      | false =>
        cases r with
        | nil => rfl
        | node rl rv rsz rr =>
          simp only [erase_rebalance, insert_rebalance, Bool.not_false, Bool.not_true, ih]
      | true =>
        cases l with
        | nil => rfl
        | node ll lv lsz lr =>
          simp only [erase_rebalance, insert_rebalance, Bool.not_true, Bool.not_false, ih]

/-! ### insert_rebalance preserves the in-order sequence, the root size
field and size-field consistency, for every fuel value -/

theorem inorder_insert_rebalance (f : Nat) (t : STree α) (b : Bool) :
    inorder (insert_rebalance f t b) = inorder t := by
  induction f generalizing t b with
  | zero => rfl
  | succ n ih =>
    cases t with
    | nil => cases b <;> rfl
    | node l v sz r =>
      cases b with
      | true =>
        cases r with
        | nil => rfl
        | node rl rv rsz rr =>
          simp only [insert_rebalance]
          split_ifs with h1 h2
          · obtain ⟨hne, _⟩ := h1
            cases rl with
            | nil => exact absurd rfl hne
            | node a w c d =>
              simp only [right_rotate, left_rotate, size0]
              simp [ih, inorder]
          · obtain ⟨hne, _⟩ := h2
            cases rr with
            | nil => exact absurd rfl hne
            | node a w c d =>
              simp only [left_rotate, size0]
              simp [ih, inorder]
          · rfl
      | false =>
        cases l with
        | nil => rfl
        | node ll lv lsz lr =>
          simp only [insert_rebalance]
          split_ifs with h1 h2
          · obtain ⟨hne, _⟩ := h1
            cases lr with
            | nil => exact absurd rfl hne
            | node a w c d =>
              simp only [left_rotate, right_rotate, size0]
              simp [ih, inorder]
          · obtain ⟨hne, _⟩ := h2
            cases ll with
            | nil => exact absurd rfl hne
            | node a w c d =>
              simp only [right_rotate, size0]
              simp [ih, inorder]
          · rfl

theorem size0_nil : size0 (nil : STree α) = 0 := rfl

theorem inorder_node (l : STree α) (v : α) (sz : Nat) (r : STree α) :
    inorder (node l v sz r) = inorder l ++ v :: inorder r := rfl

theorem size0_node (l : STree α) (v : α) (sz : Nat) (r : STree α) :
    size0 (node l v sz r) = sz := rfl

theorem sizesOkB_node_iff {l r : STree α} {v : α} {sz : Nat} :
    sizesOkB (node l v sz r) = true ↔
      sz = size0 l + size0 r + 1 ∧ sizesOkB l = true ∧ sizesOkB r = true := by
  simp [sizesOkB, and_assoc]

theorem size0_insert_rebalance (f : Nat) (t : STree α) (b : Bool) :
    size0 (insert_rebalance f t b) = size0 t := by
  induction f generalizing t b with
  | zero => rfl
  | succ n ih =>
    cases t with
    | nil => cases b <;> rfl
    | node l v sz r =>
      cases b with
      | true =>
        cases r with
        | nil => rfl
        | node rl rv rsz rr =>
          simp only [insert_rebalance]
          split_ifs with h1 h2
          · obtain ⟨hne, _⟩ := h1
            cases rl with
            | nil => exact absurd rfl hne
            | node a w c d => simp only [right_rotate, left_rotate, ih, size0_node]
          · obtain ⟨hne, _⟩ := h2
            cases rr with
            | nil => exact absurd rfl hne
            | node a w c d => simp only [left_rotate, ih, size0_node]
          · rfl
      | false =>
        cases l with
        | nil => rfl
        | node ll lv lsz lr =>
          simp only [insert_rebalance]
          split_ifs with h1 h2
          · obtain ⟨hne, _⟩ := h1
            cases lr with
            | nil => exact absurd rfl hne
            | node a w c d => simp only [left_rotate, right_rotate, ih, size0_node]
          · obtain ⟨hne, _⟩ := h2
            cases ll with
            | nil => exact absurd rfl hne
            | node a w c d => simp only [right_rotate, ih, size0_node]
          · rfl

theorem sizesOkB_insert_rebalance (f : Nat) (t : STree α) (b : Bool)
    (h : sizesOkB t = true) : sizesOkB (insert_rebalance f t b) = true := by
  induction f generalizing t b with
  | zero => exact h
  | succ n ih =>
    cases t with
    | nil => cases b <;> exact h
    | node l v sz r =>
      cases b with
      | true =>
        cases r with
        | nil => exact h
        | node rl rv rsz rr =>
          rw [sizesOkB_node_iff] at h
          obtain ⟨h1, h2, h3⟩ := h
          rw [sizesOkB_node_iff] at h3
          obtain ⟨h4, h5, h6⟩ := h3
          simp only [insert_rebalance]
          split_ifs with g1 g2
          · obtain ⟨hne, _⟩ := g1
            cases rl with
            | nil => exact absurd rfl hne
            | node a w c d =>
              rw [sizesOkB_node_iff] at h5
              obtain ⟨h7, h8, h9⟩ := h5
              simp only [right_rotate, left_rotate, size0_node]
              apply ih
              rw [sizesOkB_node_iff]
              refine ⟨?_, ih _ _ ?_, ih _ _ ?_⟩
              · rw [size0_insert_rebalance, size0_insert_rebalance]
                simp only [size0_node] at h1 h4 h7 ⊢
                omega
              · rw [sizesOkB_node_iff]
                exact ⟨rfl, h2, h8⟩
              · rw [sizesOkB_node_iff]
                exact ⟨rfl, h9, h6⟩
          · obtain ⟨hne, _⟩ := g2
            cases rr with
            | nil => exact absurd rfl hne
            | node a w c d =>
              rw [sizesOkB_node_iff] at h6
              obtain ⟨h7, h8, h9⟩ := h6
              simp only [left_rotate, size0_node]
              apply ih
              rw [sizesOkB_node_iff]
              refine ⟨?_, ih _ _ ?_, ?_⟩
              · rw [size0_insert_rebalance]
                simp only [size0_node] at h1 h4 h7 ⊢
                omega
              · rw [sizesOkB_node_iff]
                exact ⟨rfl, h2, h5⟩
              · rw [sizesOkB_node_iff]
                exact ⟨h7, h8, h9⟩
          · rw [sizesOkB_node_iff]
            exact ⟨h1, h2, by rw [sizesOkB_node_iff]; exact ⟨h4, h5, h6⟩⟩
      | false =>
        cases l with
        | nil => exact h
        | node ll lv lsz lr =>
          rw [sizesOkB_node_iff] at h
          obtain ⟨h1, h2, h3⟩ := h
          rw [sizesOkB_node_iff] at h2
          obtain ⟨h4, h5, h6⟩ := h2
          simp only [insert_rebalance]
          split_ifs with g1 g2
          · obtain ⟨hne, _⟩ := g1
            cases lr with
            | nil => exact absurd rfl hne
            | node a w c d =>
              rw [sizesOkB_node_iff] at h6
              obtain ⟨h7, h8, h9⟩ := h6
              simp only [left_rotate, right_rotate, size0_node]
              apply ih
              rw [sizesOkB_node_iff]
              refine ⟨?_, ih _ _ ?_, ih _ _ ?_⟩
              · rw [size0_insert_rebalance, size0_insert_rebalance]
                simp only [size0_node] at h1 h4 h7 ⊢
                omega
              · rw [sizesOkB_node_iff]
                exact ⟨rfl, h5, h8⟩
              · rw [sizesOkB_node_iff]
                exact ⟨rfl, h9, h3⟩
          · obtain ⟨hne, _⟩ := g2
            cases ll with
            | nil => exact absurd rfl hne
            | node a w c d =>
              rw [sizesOkB_node_iff] at h5
              obtain ⟨h7, h8, h9⟩ := h5
              simp only [right_rotate, size0_node]
              apply ih
              rw [sizesOkB_node_iff]
              refine ⟨?_, ?_, ih _ _ ?_⟩
              · rw [size0_insert_rebalance]
                simp only [size0_node] at h1 h4 h7 ⊢
                omega
              · rw [sizesOkB_node_iff]
                exact ⟨h7, h8, h9⟩
              · rw [sizesOkB_node_iff]
                exact ⟨rfl, h6, h3⟩
          · rw [sizesOkB_node_iff]
            exact ⟨h1, by rw [sizesOkB_node_iff]; exact ⟨h4, h5, h6⟩, h3⟩

/-! ### Wrapper corollaries for the rebalance entry points -/

theorem inorder_rebalI (t : STree α) (b : Bool) :
    inorder (rebalI t b) = inorder t := inorder_insert_rebalance _ t b

theorem size0_rebalI (t : STree α) (b : Bool) :
    size0 (rebalI t b) = size0 t := size0_insert_rebalance _ t b

theorem sizesOkB_rebalI {t : STree α} (b : Bool) (h : sizesOkB t = true) :
    sizesOkB (rebalI t b) = true := sizesOkB_insert_rebalance _ t b h

theorem inorder_rebalE (t : STree α) (b : Bool) :
    inorder (rebalE t b) = inorder t := by
  unfold rebalE
  rw [erase_rebalance_eq]
  exact inorder_insert_rebalance _ t _

theorem size0_rebalE (t : STree α) (b : Bool) :
    size0 (rebalE t b) = size0 t := by
  unfold rebalE
  rw [erase_rebalance_eq]
  exact size0_insert_rebalance _ t _

theorem sizesOkB_rebalE {t : STree α} (b : Bool) (h : sizesOkB t = true) :
    sizesOkB (rebalE t b) = true := by
  unfold rebalE
  rw [erase_rebalance_eq]
  exact sizesOkB_insert_rebalance _ t _ h

/-! ### upInsert facts -/

theorem upInsert_append_lt (x v : α) (A B : List α) (hxv : x < v) :
    upInsert x (A ++ v :: B) = upInsert x A ++ v :: B := by
  induction A with
  | nil => simp [upInsert, hxv]
  | cons a A ihA =>
    by_cases hxa : x < a
    · simp [upInsert, hxa]
    · simp [upInsert, hxa, ihA]

theorem upInsert_append_ge (x v : α) (A B : List α) (hvx : ¬ x < v)
    (hA : ∀ z ∈ A, ¬ x < z) :
    upInsert x (A ++ v :: B) = A ++ v :: upInsert x B := by
  induction A with
  | nil => simp [upInsert, hvx]
  | cons a A ihA =>
    have hxa : ¬ x < a := hA a (by simp)
    simp only [List.cons_append, upInsert, hxa, if_false, List.cons.injEq,
      true_and]
    exact ihA fun z hz => hA z (by simp [hz])

theorem sorted_upInsert {L : List α} (x : α)
    (h : List.Sorted (· ≤ ·) L) : List.Sorted (· ≤ ·) (upInsert x L) := by
  induction L with
  | nil => simp [upInsert]
  | cons a L ihL =>
    rw [List.sorted_cons] at h
    by_cases hxa : x < a
    · rw [upInsert, if_pos hxa, List.sorted_cons]
      refine ⟨?_, by rw [List.sorted_cons]; exact h⟩
      intro b hb
      rcases List.mem_cons.mp hb with hb | hb
      · exact le_of_lt (hb ▸ hxa)
      · exact le_trans (le_of_lt hxa) (h.1 b hb)
    · rw [upInsert, if_neg hxa, List.sorted_cons]
      refine ⟨?_, ihL h.2⟩
      intro b hb
      have hmem : ∀ c L2, b ∈ upInsert (α := α) c L2 → b = c ∨ b ∈ L2 := by
        intro c L2
        induction L2 with
        | nil => simp [upInsert]
        | cons d L2 ihd =>
          by_cases hcd : c < d
          · simp only [upInsert, if_pos hcd, List.mem_cons]
            tauto
          · simp only [upInsert, if_neg hcd, List.mem_cons]
            rintro (rfl | hb2)
            · right; left; rfl
            · rcases ihd hb2 with h3 | h3
              · exact Or.inl h3
              · exact Or.inr (Or.inr h3)
      rcases hmem x L hb with rfl | hb2
      · exact not_lt.mp hxa
      · exact h.1 b hb2

theorem length_upInsert (x : α) (L : List α) :
    (upInsert x L).length = L.length + 1 := by
  induction L with
  | nil => rfl
  | cons a L ihL =>
    by_cases hxa : x < a
    · simp [upInsert, hxa]
    · simp [upInsert, hxa, ihL]

theorem mem_upInsert (x y : α) (L : List α) :
    y ∈ upInsert x L ↔ y = x ∨ y ∈ L := by
  induction L with
  | nil => simp [upInsert]
  | cons a L ihL =>
    by_cases hxa : x < a
    · simp only [upInsert, if_pos hxa, List.mem_cons]
    · simp only [upInsert, if_neg hxa, List.mem_cons, ihL]
      tauto

/-! ### insert_equal: effect on the in-order sequence, sizes and
size-field consistency -/

theorem size0_insert_equal_go (x : α) (t : STree α) :
    size0 (insert_equal_go x t) = size0 t + 1 := by
  induction t with
  | nil => rfl
  | node l v sz r ihl ihr =>
    simp only [insert_equal_go]
    by_cases hxv : x < v
    · rw [if_pos hxv]
      cases l with
      | nil => rfl
      | node ll lv lsz lr => rw [size0_rebalI]; rfl
    · rw [if_neg hxv]
      cases r with
      | nil => rfl
      | node rl rv rsz rr => rw [size0_rebalI]; rfl

theorem size0_insert_equal_node (x : α) (t : STree α) :
    size0 (insert_equal_node x t) = size0 t + 1 := by
  cases t with
  | nil => rfl
  | node l v sz r =>
    simp only [insert_equal_node]
    by_cases hxv : x < v
    · rw [if_pos hxv]
      cases l with
      | nil => rw [size0_rebalI]; rfl
      | node ll lv lsz lr => rw [size0_rebalI]; rfl
    · rw [if_neg hxv]
      cases r with
      | nil => rw [size0_rebalI]; rfl
      | node rl rv rsz rr => rw [size0_rebalI]; rfl

theorem sizesOkB_insert_equal_go (x : α) {t : STree α}
    (h : sizesOkB t = true) : sizesOkB (insert_equal_go x t) = true := by
  induction t with
  | nil => simp [insert_equal_go, sizesOkB, size0]
  | node l v sz r ihl ihr =>
    rw [sizesOkB_node_iff] at h
    obtain ⟨h1, h2, h3⟩ := h
    simp only [insert_equal_go]
    by_cases hxv : x < v
    · rw [if_pos hxv]
      cases l with
      | nil =>
        rw [sizesOkB_node_iff]
        refine ⟨?_, by simp [sizesOkB, size0], h3⟩
        simp only [size0_node, size0_nil] at h1 ⊢
        simp [size0, sizesOkB] at h1 ⊢
        omega
      | node ll lv lsz lr =>
        apply sizesOkB_rebalI
        rw [sizesOkB_node_iff]
        refine ⟨?_, ihl h2, h3⟩
        rw [size0_insert_equal_go]
        omega
    · rw [if_neg hxv]
      cases r with
      | nil =>
        rw [sizesOkB_node_iff]
        refine ⟨?_, h2, by simp [sizesOkB, size0]⟩
        simp [size0, sizesOkB] at h1 ⊢
        omega
      | node rl rv rsz rr =>
        apply sizesOkB_rebalI
        rw [sizesOkB_node_iff]
        refine ⟨?_, h2, ihr h3⟩
        rw [size0_insert_equal_go]
        omega

theorem sizesOkB_insert_equal_node (x : α) {t : STree α}
    (h : sizesOkB t = true) : sizesOkB (insert_equal_node x t) = true := by
  cases t with
  | nil => simp [insert_equal_node, sizesOkB, size0]
  | node l v sz r =>
    rw [sizesOkB_node_iff] at h
    obtain ⟨h1, h2, h3⟩ := h
    simp only [insert_equal_node]
    by_cases hxv : x < v
    · rw [if_pos hxv]
      cases l with
      | nil =>
        apply sizesOkB_rebalI
        rw [sizesOkB_node_iff]
        refine ⟨?_, by simp [sizesOkB, size0], h3⟩
        simp [size0, sizesOkB] at h1 ⊢
        omega
      | node ll lv lsz lr =>
        apply sizesOkB_rebalI
        rw [sizesOkB_node_iff]
        refine ⟨?_, sizesOkB_insert_equal_go x h2, h3⟩
        rw [size0_insert_equal_go]
        omega
    · rw [if_neg hxv]
      cases r with
      | nil =>
        apply sizesOkB_rebalI
        rw [sizesOkB_node_iff]
        refine ⟨?_, h2, by simp [sizesOkB, size0]⟩
        simp [size0, sizesOkB] at h1 ⊢
        omega
      | node rl rv rsz rr =>
        apply sizesOkB_rebalI
        rw [sizesOkB_node_iff]
        refine ⟨?_, h2, sizesOkB_insert_equal_go x h3⟩
        rw [size0_insert_equal_go]
        omega

theorem sorted_parts {A B : List α} {v : α}
    (h : List.Sorted (· ≤ ·) (A ++ v :: B)) :
    List.Sorted (· ≤ ·) A ∧ List.Sorted (· ≤ ·) B ∧
      (∀ z ∈ A, z ≤ v) ∧ (∀ z ∈ B, v ≤ z) := by
  have h2 := (List.pairwise_append).mp h
  obtain ⟨hA, hvB, hcross⟩ := h2
  rw [List.pairwise_cons] at hvB
  exact ⟨hA, hvB.2, fun z hz => hcross z hz v (by simp), hvB.1⟩

theorem inorder_insert_equal_go (x : α) {t : STree α}
    (h : List.Sorted (· ≤ ·) (inorder t)) :
    inorder (insert_equal_go x t) = upInsert x (inorder t) := by
  induction t with
  | nil => rfl
  | node l v sz r ihl ihr =>
    rw [inorder] at h
    obtain ⟨hA, hB, hAv, hvB⟩ := sorted_parts h
    simp only [insert_equal_go, inorder]
    by_cases hxv : x < v
    · rw [if_pos hxv, upInsert_append_lt x v _ _ hxv]
      cases l with
      | nil => simp [inorder, upInsert]
      | node ll lv lsz lr =>
        rw [inorder_rebalI, inorder, ihl hA]
    · rw [if_neg hxv, upInsert_append_ge x v _ _ hxv]
      · cases r with
        | nil => simp [inorder, upInsert]
        | node rl rv rsz rr =>
          rw [inorder_rebalI, inorder, ihr hB]
      · intro z hz
        exact fun hlt => hxv (lt_of_lt_of_le hlt (hAv z hz))

theorem inorder_insert_equal_node (x : α) {t : STree α}
    (h : List.Sorted (· ≤ ·) (inorder t)) :
    inorder (insert_equal_node x t) = upInsert x (inorder t) := by
  cases t with
  | nil => rfl
  | node l v sz r =>
    rw [inorder] at h
    obtain ⟨hA, hB, hAv, hvB⟩ := sorted_parts h
    simp only [insert_equal_node, inorder]
    by_cases hxv : x < v
    · rw [if_pos hxv, upInsert_append_lt x v _ _ hxv]
      cases l with
      | nil => rw [inorder_rebalI]; simp [inorder, upInsert]
      | node ll lv lsz lr =>
        rw [inorder_rebalI, inorder, inorder_insert_equal_go x hA]
    · rw [if_neg hxv, upInsert_append_ge x v _ _ hxv]
      · cases r with
        | nil => rw [inorder_rebalI]; simp [inorder, upInsert]
        | node rl rv rsz rr =>
          rw [inorder_rebalI, inorder, inorder_insert_equal_go x hB]
      · intro z hz
        exact fun hlt => hxv (lt_of_lt_of_le hlt (hAv z hz))

/-! ### insert_unique: failure leaves the tree untouched; success has
the same list-level effect as equal insertion of a new key -/

theorem insert_unique_go_false (x : α) (t : STree α)
    (h : (insert_unique_go x t).2 = false) : (insert_unique_go x t).1 = t := by
  induction t with
  | nil => simp [insert_unique_go] at h
  | node l v sz r ihl ihr =>
    simp only [insert_unique_go] at h ⊢
    by_cases hxv : x < v
    · rw [if_pos hxv] at h ⊢
      cases l with
      | nil => simp at h
      | node ll lv lsz lr =>
        rcases hgo : insert_unique_go x (node ll lv lsz lr) with ⟨l2, fl⟩
        cases fl with
        | false => rfl
        | true => rw [hgo] at h; simp at h
    · rw [if_neg hxv] at h ⊢
      by_cases hvx : v < x
      · rw [if_neg (not_not_intro hvx)] at h ⊢
        cases r with
        | nil => simp at h
        | node rl rv rsz rr =>
          rcases hgo : insert_unique_go x (node rl rv rsz rr) with ⟨r2, fl⟩
          cases fl with
          | false => rfl
          | true => rw [hgo] at h; simp at h
      · rw [if_pos hvx]

theorem insert_unique_go_mem (x : α) {t : STree α}
    (hs : List.Sorted (· ≤ ·) (inorder t)) (hm : x ∈ inorder t) :
    insert_unique_go x t = (t, false) := by
  induction t with
  | nil => simp [inorder] at hm
  | node l v sz r ihl ihr =>
    rw [inorder] at hs hm
    obtain ⟨hA, hB, hAv, hvB⟩ := sorted_parts hs
    simp only [insert_unique_go]
    by_cases hxv : x < v
    · rw [if_pos hxv]
      have hmA : x ∈ inorder l := by
        rcases List.mem_append.mp hm with h2 | h2
        · exact h2
        · rcases List.mem_cons.mp h2 with rfl | h3
          · exact absurd hxv (lt_irrefl x)
          · exact absurd (lt_of_lt_of_le hxv (hvB x h3)) (lt_irrefl x)
      cases l with
      | nil => simp [inorder] at hmA
      | node ll lv lsz lr => rw [ihl hA hmA]
    · rw [if_neg hxv]
      by_cases hvx : v < x
      · rw [if_neg (not_not_intro hvx)]
        have hmB : x ∈ inorder r := by
          rcases List.mem_append.mp hm with h2 | h2
          · exact absurd (lt_of_le_of_lt (hAv x h2) hvx) (lt_irrefl x)
          · rcases List.mem_cons.mp h2 with rfl | h3
            · exact absurd hvx (lt_irrefl x)
            · exact h3
        cases r with
        | nil => simp [inorder] at hmB
        | node rl rv rsz rr => rw [ihr hB hmB]
      · rw [if_pos hvx]

theorem insert_unique_node_mem (x : α) {t : STree α}
    (hs : List.Sorted (· ≤ ·) (inorder t)) (hm : x ∈ inorder t) :
    insert_unique_node x t = (t, x, false) := by
  cases t with
  | nil => simp [inorder] at hm
  | node l v sz r =>
    rw [inorder] at hs hm
    obtain ⟨hA, hB, hAv, hvB⟩ := sorted_parts hs
    simp only [insert_unique_node]
    by_cases hxv : x < v
    · rw [if_pos hxv]
      have hmA : x ∈ inorder l := by
        rcases List.mem_append.mp hm with h2 | h2
        · exact h2
        · rcases List.mem_cons.mp h2 with rfl | h3
          · exact absurd hxv (lt_irrefl x)
          · exact absurd (lt_of_lt_of_le hxv (hvB x h3)) (lt_irrefl x)
      cases l with
      | nil => simp [inorder] at hmA
      | node ll lv lsz lr => rw [insert_unique_go_mem x hA hmA]
    · rw [if_neg hxv]
      by_cases hvx : v < x
      · rw [if_neg (not_not_intro hvx)]
        have hmB : x ∈ inorder r := by
          rcases List.mem_append.mp hm with h2 | h2
          · exact absurd (lt_of_le_of_lt (hAv x h2) hvx) (lt_irrefl x)
          · rcases List.mem_cons.mp h2 with rfl | h3
            · exact absurd hvx (lt_irrefl x)
            · exact h3
        cases r with
        | nil => simp [inorder] at hmB
        | node rl rv rsz rr => rw [insert_unique_go_mem x hB hmB]
      · rw [if_pos hvx]

theorem insert_unique_go_notmem (x : α) {t : STree α}
    (hs : List.Sorted (· ≤ ·) (inorder t)) (hm : x ∉ inorder t) :
    (insert_unique_go x t).2 = true ∧
      inorder (insert_unique_go x t).1 = upInsert x (inorder t) ∧
      size0 (insert_unique_go x t).1 = size0 t + 1 := by
  induction t with
  | nil => simp [insert_unique_go, inorder, upInsert, size0]
  | node l v sz r ihl ihr =>
    rw [inorder] at hs hm
    obtain ⟨hA, hB, hAv, hvB⟩ := sorted_parts hs
    have hmA : x ∉ inorder l := fun h2 => hm (List.mem_append.mpr (Or.inl h2))
    have hmB : x ∉ inorder r := fun h2 =>
      hm (List.mem_append.mpr (Or.inr (List.mem_cons.mpr (Or.inr h2))))
    have hxvne : x ≠ v := fun h2 =>
      hm (List.mem_append.mpr (Or.inr (List.mem_cons.mpr (Or.inl h2))))
    simp only [insert_unique_go, inorder]
    by_cases hxv : x < v
    · rw [if_pos hxv, upInsert_append_lt x v _ _ hxv]
      cases l with
      | nil => simp [inorder, upInsert, size0, inorder_rebalI]
      | node ll lv lsz lr =>
        obtain ⟨hf, hio, hsz⟩ := ihl hA hmA
        rcases hgo : insert_unique_go x (node ll lv lsz lr) with ⟨l2, fl⟩
        rw [hgo] at hf hio hsz
        cases fl with
        | false => simp at hf
        | true =>
          refine ⟨rfl, ?_, ?_⟩
          · simp only [inorder_rebalI, inorder]
            rw [hio]
            rfl
          · simp only [size0_rebalI, size0_node]
    · have hvx : v < x :=
        lt_of_le_of_ne (not_lt.mp hxv) (fun h2 => hxvne h2.symm)
      have hup : upInsert x (inorder l ++ v :: inorder r) =
          inorder l ++ v :: upInsert x (inorder r) := by
        refine upInsert_append_ge x v _ _ hxv ?_
        intro z hz
        exact fun hlt => hxv (lt_of_lt_of_le hlt (hAv z hz))
      rw [if_neg hxv, if_neg (not_not_intro hvx), hup]
      cases r with
      | nil => simp [inorder, upInsert, size0, inorder_rebalI]
      | node rl rv rsz rr =>
        obtain ⟨hf, hio, hsz⟩ := ihr hB hmB
        rcases hgo : insert_unique_go x (node rl rv rsz rr) with ⟨r2, fl⟩
        rw [hgo] at hf hio hsz
        cases fl with
        | false => simp at hf
        | true =>
          refine ⟨rfl, ?_, ?_⟩
          · simp only [inorder_rebalI, inorder]
            rw [hio]
            rfl
          · simp only [size0_rebalI, size0_node]

theorem insert_unique_node_notmem (x : α) {t : STree α}
    (hs : List.Sorted (· ≤ ·) (inorder t)) (hm : x ∉ inorder t) :
    (insert_unique_node x t).2.2 = true ∧
      inorder (insert_unique_node x t).1 = upInsert x (inorder t) ∧
      size0 (insert_unique_node x t).1 = size0 t + 1 := by
  cases t with
  | nil => simp [insert_unique_node, inorder, upInsert, size0]
  | node l v sz r =>
    rw [inorder] at hs hm
    obtain ⟨hA, hB, hAv, hvB⟩ := sorted_parts hs
    have hmA : x ∉ inorder l := fun h2 => hm (List.mem_append.mpr (Or.inl h2))
    have hmB : x ∉ inorder r := fun h2 =>
      hm (List.mem_append.mpr (Or.inr (List.mem_cons.mpr (Or.inr h2))))
    have hxvne : x ≠ v := fun h2 =>
      hm (List.mem_append.mpr (Or.inr (List.mem_cons.mpr (Or.inl h2))))
    simp only [insert_unique_node, inorder]
    by_cases hxv : x < v
    · rw [if_pos hxv, upInsert_append_lt x v _ _ hxv]
      cases l with
      | nil => simp [inorder, upInsert, size0_node, size0_nil, inorder_rebalI, size0_rebalI]
      | node ll lv lsz lr =>
        obtain ⟨hf, hio, hsz⟩ := insert_unique_go_notmem x hA hmA
        rcases hgo : insert_unique_go x (node ll lv lsz lr) with ⟨l2, fl⟩
        rw [hgo] at hf hio hsz
        cases fl with
        | false => simp at hf
        | true =>
          refine ⟨rfl, ?_, ?_⟩
          · simp only [inorder_rebalI, inorder]
            rw [hio]
            rfl
          · simp only [size0_rebalI, size0_node]
    · have hvx : v < x :=
        lt_of_le_of_ne (not_lt.mp hxv) (fun h2 => hxvne h2.symm)
      have hup : upInsert x (inorder l ++ v :: inorder r) =
          inorder l ++ v :: upInsert x (inorder r) := by
        refine upInsert_append_ge x v _ _ hxv ?_
        intro z hz
        exact fun hlt => hxv (lt_of_lt_of_le hlt (hAv z hz))
      rw [if_neg hxv, if_neg (not_not_intro hvx), hup]
      cases r with
      | nil => simp [inorder, upInsert, size0_node, size0_nil, inorder_rebalI, size0_rebalI]
      | node rl rv rsz rr =>
        obtain ⟨hf, hio, hsz⟩ := insert_unique_go_notmem x hB hmB
        rcases hgo : insert_unique_go x (node rl rv rsz rr) with ⟨r2, fl⟩
        rw [hgo] at hf hio hsz
        cases fl with
        | false => simp at hf
        | true =>
          refine ⟨rfl, ?_, ?_⟩
          · simp only [inorder_rebalI, inorder]
            rw [hio]
            rfl
          · simp only [size0_rebalI, size0_node]

theorem insert_unique_go_true_size0 (x : α) (t : STree α)
    (h : (insert_unique_go x t).2 = true) :
    size0 (insert_unique_go x t).1 = size0 t + 1 := by
  induction t with
  | nil => rfl
  | node l v sz r ihl ihr =>
    simp only [insert_unique_go] at h ⊢
    by_cases hxv : x < v
    · rw [if_pos hxv] at h ⊢
      cases l with
      | nil => simp [size0]
      | node ll lv lsz lr =>
        rcases hgo : insert_unique_go x (node ll lv lsz lr) with ⟨l2, fl⟩
        cases fl with
        | false => rw [hgo] at h; simp at h
        | true => dsimp only; simp only [size0_rebalI, size0_node]
    · rw [if_neg hxv] at h ⊢
      by_cases hvx : v < x
      · rw [if_neg (not_not_intro hvx)] at h ⊢
        cases r with
        | nil => simp [size0]
        | node rl rv rsz rr =>
          rcases hgo : insert_unique_go x (node rl rv rsz rr) with ⟨r2, fl⟩
          cases fl with
          | false => rw [hgo] at h; simp at h
          | true => dsimp only; simp only [size0_rebalI, size0_node]
      · rw [if_pos hvx] at h
        simp at h

theorem sizesOkB_insert_unique_go (x : α) {t : STree α}
    (h : sizesOkB t = true) : sizesOkB (insert_unique_go x t).1 = true := by
  induction t with
  | nil => simp [insert_unique_go, sizesOkB, size0]
  | node l v sz r ihl ihr =>
    rw [sizesOkB_node_iff] at h
    obtain ⟨h1, h2, h3⟩ := h
    simp only [insert_unique_go]
    by_cases hxv : x < v
    · rw [if_pos hxv]
      cases l with
      | nil =>
        rw [sizesOkB_node_iff]
        refine ⟨?_, by simp [sizesOkB, size0], h3⟩
        simp [size0, sizesOkB] at h1 ⊢
        omega
      | node ll lv lsz lr =>
        rcases hgo : insert_unique_go x (node ll lv lsz lr) with ⟨l2, fl⟩
        have h4 := ihl h2
        rw [hgo] at h4
        cases fl with
        | false =>
          rw [sizesOkB_node_iff]
          exact ⟨h1, h2, h3⟩
        | true =>
          have h5 : size0 l2 = lsz + 1 := by
            have h6 := insert_unique_go_true_size0 x (node ll lv lsz lr)
              (by rw [hgo])
            rw [hgo] at h6
            exact h6
          apply sizesOkB_rebalI
          rw [sizesOkB_node_iff]
          refine ⟨?_, h4, h3⟩
          simp only [size0_node] at h1 h5 ⊢
          omega
    · rw [if_neg hxv]
      by_cases hvx : v < x
      · rw [if_neg (not_not_intro hvx)]
        cases r with
        | nil =>
          rw [sizesOkB_node_iff]
          refine ⟨?_, h2, by simp [sizesOkB, size0]⟩
          simp [size0, sizesOkB] at h1 ⊢
          omega
        | node rl rv rsz rr =>
          rcases hgo : insert_unique_go x (node rl rv rsz rr) with ⟨r2, fl⟩
          have h4 := ihr h3
          rw [hgo] at h4
          cases fl with
          | false =>
            rw [sizesOkB_node_iff]
            exact ⟨h1, h2, h3⟩
          | true =>
            have h5 : size0 r2 = rsz + 1 := by
              have h6 := insert_unique_go_true_size0 x (node rl rv rsz rr)
                (by rw [hgo])
              rw [hgo] at h6
              exact h6
            apply sizesOkB_rebalI
            rw [sizesOkB_node_iff]
            refine ⟨?_, h2, h4⟩
            simp only [size0_node] at h1 h5 ⊢
            omega
      · rw [if_pos hvx]
        rw [sizesOkB_node_iff]
        exact ⟨h1, h2, h3⟩

theorem sizesOkB_insert_unique_node (x : α) {t : STree α}
    (h : sizesOkB t = true) : sizesOkB (insert_unique_node x t).1 = true := by
  cases t with
  | nil => simp [insert_unique_node, sizesOkB, size0]
  | node l v sz r =>
    rw [sizesOkB_node_iff] at h
    obtain ⟨h1, h2, h3⟩ := h
    simp only [insert_unique_node]
    by_cases hxv : x < v
    · rw [if_pos hxv]
      cases l with
      | nil =>
        apply sizesOkB_rebalI
        rw [sizesOkB_node_iff]
        refine ⟨?_, by simp [sizesOkB, size0], h3⟩
        simp [size0, sizesOkB] at h1 ⊢
        omega
      | node ll lv lsz lr =>
        rcases hgo : insert_unique_go x (node ll lv lsz lr) with ⟨l2, fl⟩
        have h4 := sizesOkB_insert_unique_go x h2
        rw [hgo] at h4
        cases fl with
        | false =>
          rw [sizesOkB_node_iff]
          exact ⟨h1, h2, h3⟩
        | true =>
          have h5 : size0 l2 = lsz + 1 := by
            have h6 := insert_unique_go_true_size0 x (node ll lv lsz lr)
              (by rw [hgo])
            rw [hgo] at h6
            exact h6
          apply sizesOkB_rebalI
          rw [sizesOkB_node_iff]
          refine ⟨?_, h4, h3⟩
          simp only [size0_node] at h1 h5 ⊢
          omega
    · rw [if_neg hxv]
      by_cases hvx : v < x
      · rw [if_neg (not_not_intro hvx)]
        cases r with
        | nil =>
          apply sizesOkB_rebalI
          rw [sizesOkB_node_iff]
          refine ⟨?_, h2, by simp [sizesOkB, size0]⟩
          simp [size0, sizesOkB] at h1 ⊢
          omega
        | node rl rv rsz rr =>
          rcases hgo : insert_unique_go x (node rl rv rsz rr) with ⟨r2, fl⟩
          have h4 := sizesOkB_insert_unique_go x h3
          rw [hgo] at h4
          cases fl with
          | false =>
            rw [sizesOkB_node_iff]
            exact ⟨h1, h2, h3⟩
          | true =>
            have h5 : size0 r2 = rsz + 1 := by
              have h6 := insert_unique_go_true_size0 x (node rl rv rsz rr)
                (by rw [hgo])
              rw [hgo] at h6
              exact h6
            apply sizesOkB_rebalI
            rw [sizesOkB_node_iff]
            refine ⟨?_, h2, h4⟩
            simp only [size0_node] at h1 h5 ⊢
            omega
      · rw [if_pos hvx]
        rw [sizesOkB_node_iff]
        exact ⟨h1, h2, h3⟩

/-! ### Stored sizes against the element count, and the deletion
helpers -/

theorem size0_eq_length {t : STree α} (h : sizesOkB t = true) :
    size0 t = (inorder t).length := by
  induction t with
  | nil => rfl
  | node l v sz r ihl ihr =>
    rw [sizesOkB_node_iff] at h
    obtain ⟨h1, h2, h3⟩ := h
    simp only [size0_node, inorder, List.length_append, List.length_cons]
    rw [ihl h2, ihr h3] at h1
    omega

theorem del_leftmost_some (l : STree α) (v : α) (sz : Nat) (r : STree α) :
    ∃ x t2, del_leftmost (node l v sz r) = some (x, t2) := by
  induction l generalizing v sz r with
  | nil => exact ⟨v, r, rfl⟩
  | node ll lv lsz lr ihl ihr =>
    obtain ⟨x, t2, h⟩ := ihl lv lsz lr
    refine ⟨x, rebalE (node t2 v (sz - 1) r) false, ?_⟩
    simp only [del_leftmost, h]

theorem del_rightmost_some (l : STree α) (v : α) (sz : Nat) (r : STree α) :
    ∃ x t2, del_rightmost (node l v sz r) = some (x, t2) := by
  induction r generalizing l v sz with
  | nil => exact ⟨v, l, rfl⟩
  | node rl rv rsz rr ihl ihr =>
    obtain ⟨x, t2, h⟩ := ihr rl rv rsz
    refine ⟨x, rebalE (node l v (sz - 1) t2) true, ?_⟩
    simp only [del_rightmost, h]

theorem del_leftmost_spec {t : STree α} (hs : sizesOkB t = true) :
    ∀ {x : α} {t2 : STree α}, del_leftmost t = some (x, t2) →
      inorder t = x :: inorder t2 ∧ size0 t2 = size0 t - 1 ∧
        sizesOkB t2 = true := by
  induction t with
  | nil => intro x t2 h; exact absurd h (by simp [del_leftmost])
  | node l v sz r ihl ihr =>
    intro x t2 h
    rw [sizesOkB_node_iff] at hs
    obtain ⟨h1, h2, h3⟩ := hs
    cases l with
    | nil =>
      simp only [del_leftmost, Option.some.injEq, Prod.mk.injEq] at h
      obtain ⟨hx, ht2⟩ := h
      subst hx
      subst ht2
      refine ⟨by simp [inorder], ?_, h3⟩
      simp only [size0_nil] at h1
      simp only [size0_node]
      omega
    | node ll lv lsz lr =>
      simp only [del_leftmost] at h
      rcases hdl : del_leftmost (node ll lv lsz lr) with _ | ⟨x2, l2⟩
      · rw [hdl] at h
        exact absurd h (by simp)
      · rw [hdl] at h
        simp only [Option.some.injEq, Prod.mk.injEq] at h
        obtain ⟨hx, ht2⟩ := h
        subst hx
        subst ht2
        obtain ⟨hio, hsz2, hok2⟩ := ihl h2 hdl
        have hlsz : lsz = size0 ll + size0 lr + 1 := by
          rw [sizesOkB_node_iff] at h2
          simpa using h2.1
        refine ⟨?_, ?_, ?_⟩
        · rw [inorder_node, hio, inorder_rebalE, inorder_node, List.cons_append]
        · rw [size0_rebalE, size0_node, size0_node]
        · apply sizesOkB_rebalE
          rw [sizesOkB_node_iff]
          refine ⟨?_, hok2, h3⟩
          simp only [size0_node] at h1 hsz2 ⊢
          omega

theorem del_rightmost_spec {t : STree α} (hs : sizesOkB t = true) :
    ∀ {x : α} {t2 : STree α}, del_rightmost t = some (x, t2) →
      inorder t = inorder t2 ++ [x] ∧ size0 t2 = size0 t - 1 ∧
        sizesOkB t2 = true := by
  induction t with
  | nil => intro x t2 h; exact absurd h (by simp [del_rightmost])
  | node l v sz r ihl ihr =>
    intro x t2 h
    rw [sizesOkB_node_iff] at hs
    obtain ⟨h1, h2, h3⟩ := hs
    cases r with
    | nil =>
      simp only [del_rightmost, Option.some.injEq, Prod.mk.injEq] at h
      obtain ⟨hx, ht2⟩ := h
      subst hx
      subst ht2
      refine ⟨by simp [inorder], ?_, h2⟩
      simp only [size0_nil] at h1
      simp only [size0_node]
      omega
    | node rl rv rsz rr =>
      simp only [del_rightmost] at h
      rcases hdl : del_rightmost (node rl rv rsz rr) with _ | ⟨x2, r2⟩
      · rw [hdl] at h
        exact absurd h (by simp)
      · rw [hdl] at h
        simp only [Option.some.injEq, Prod.mk.injEq] at h
        obtain ⟨hx, ht2⟩ := h
        subst hx
        subst ht2
        obtain ⟨hio, hsz2, hok2⟩ := ihr h3 hdl
        have hrsz : rsz = size0 rl + size0 rr + 1 := by
          rw [sizesOkB_node_iff] at h3
          simpa using h3.1
        refine ⟨?_, ?_, ?_⟩
        · rw [inorder_node, hio, inorder_rebalE, inorder_node]
          simp
        · rw [size0_rebalE, size0_node, size0_node]
        · apply sizesOkB_rebalE
          rw [sizesOkB_node_iff]
          refine ⟨?_, h2, hok2⟩
          simp only [size0_node] at h1 hsz2 ⊢
          omega

/-! ### Paths, in-order indices, and validity -/

theorem valueAt_root (l : STree α) (v : α) (sz : Nat) (r : STree α) :
    valueAt (node l v sz r) [] = some v := rfl

theorem valueAt_cons_false (l : STree α) (v : α) (sz : Nat) (r : STree α)
    (p : List Bool) : valueAt (node l v sz r) (false :: p) = valueAt l p := rfl

theorem valueAt_cons_true (l : STree α) (v : α) (sz : Nat) (r : STree α)
    (p : List Bool) : valueAt (node l v sz r) (true :: p) = valueAt r p := rfl

theorem valueAt_nil_eq_none (p : List Bool) :
    valueAt (nil : STree α) p = none := by
  cases p <;> rfl

theorem pathIdx_root (l : STree α) (v : α) (sz : Nat) (r : STree α) :
    pathIdx (node l v sz r) [] = (inorder l).length := rfl

theorem pathIdx_cons_false (l : STree α) (v : α) (sz : Nat) (r : STree α)
    (p : List Bool) : pathIdx (node l v sz r) (false :: p) = pathIdx l p := rfl

theorem pathIdx_cons_true (l : STree α) (v : α) (sz : Nat) (r : STree α)
    (p : List Bool) :
    pathIdx (node l v sz r) (true :: p) =
      (inorder l).length + 1 + pathIdx r p := rfl

theorem pathIdx_lt_length {t : STree α} : ∀ {p : List Bool} {x : α},
    valueAt t p = some x → pathIdx t p < (inorder t).length := by
  induction t with
  | nil =>
    intro p x h
    rw [valueAt_nil_eq_none] at h
    exact absurd h (by simp)
  | node l v sz r ihl ihr =>
    intro p x h
    cases p with
    | nil =>
      simp only [pathIdx_root, inorder, List.length_append, List.length_cons]
      omega
    | cons d p2 =>
      cases d with
      | false =>
        rw [valueAt_cons_false] at h
        have := ihl h
        simp only [pathIdx_cons_false, inorder, List.length_append,
          List.length_cons]
        omega
      | true =>
        rw [valueAt_cons_true] at h
        have := ihr h
        simp only [pathIdx_cons_true, inorder, List.length_append,
          List.length_cons]
        omega

theorem valueAt_getElem {t : STree α} : ∀ {p : List Bool} {x : α},
    valueAt t p = some x → (inorder t)[pathIdx t p]? = some x := by
  induction t with
  | nil =>
    intro p x h
    rw [valueAt_nil_eq_none] at h
    exact absurd h (by simp)
  | node l v sz r ihl ihr =>
    intro p x h
    cases p with
    | nil =>
      rw [valueAt_root, Option.some.injEq] at h
      subst h
      rw [pathIdx_root, inorder,
        List.getElem?_append_right (le_refl (inorder l).length)]
      simp
    | cons d p2 =>
      cases d with
      | false =>
        rw [valueAt_cons_false] at h
        have hlt := pathIdx_lt_length h
        rw [pathIdx_cons_false, inorder, List.getElem?_append, if_pos hlt]
        exact ihl h
      | true =>
        rw [valueAt_cons_true] at h
        rw [pathIdx_cons_true, inorder,
          List.getElem?_append_right (by omega)]
        have hidx : (inorder l).length + 1 + pathIdx r p2 -
            (inorder l).length = pathIdx r p2 + 1 := by omega
        rw [hidx, List.getElem?_cons_succ]
        exact ihr h

theorem valueAt_node_ne_nil {l : STree α}
    {p : List Bool} {x : α} (h : valueAt l p = some x) : l ≠ nil := by
  intro h2
  subst h2
  rw [valueAt_nil_eq_none] at h
  exact absurd h (by simp)

/-! ### erase_node on a valid path: one element leaves the in-order
sequence, the root size drops by one, and the size fields stay
consistent -/

theorem erase_at_spec {t : STree α} (hs : sizesOkB t = true) :
    ∀ {p : List Bool} {x : α}, valueAt t p = some x →
      inorder (erase_at t p) = (inorder t).eraseIdx (pathIdx t p) ∧
      size0 (erase_at t p) = size0 t - 1 ∧
      sizesOkB (erase_at t p) = true := by
  induction t with
  | nil =>
    intro p x h
    rw [valueAt_nil_eq_none] at h
    exact absurd h (by simp)
  | node l v sz r ihl ihr =>
    intro p x h
    rw [sizesOkB_node_iff] at hs
    obtain ⟨h1, h2, h3⟩ := hs
    cases p with
    | nil =>
      cases l with
      | nil =>
        cases r with
        | nil =>
          refine ⟨?_, ?_, rfl⟩
          · simp [erase_at, inorder, pathIdx_root]
          · simp only [erase_at, size0_nil, size0_node]
            simp only [size0_nil] at h1
            omega
        | node rl rv rsz rr =>
          refine ⟨?_, ?_, h3⟩
          · simp [erase_at, inorder, pathIdx_root]
          · simp only [erase_at, size0_node]
            simp only [size0_nil, size0_node] at h1 ⊢
            omega
      | node ll lv lsz lr =>
        cases r with
        | nil =>
          refine ⟨?_, ?_, h2⟩
          · simp only [erase_at, inorder, pathIdx_root]
            rw [List.eraseIdx_append_of_length_le (le_refl _)]
            simp
          · simp only [erase_at, size0_node]
            simp only [size0_nil, size0_node] at h1 ⊢
            omega
        | node rl rv rsz rr =>
          by_cases hlt : size0 (node ll lv lsz lr) < size0 (node rl rv rsz rr)
          · obtain ⟨x2, r2, hdl⟩ := del_leftmost_some rl rv rsz rr
            obtain ⟨hio, hsz2, hok2⟩ := del_leftmost_spec h3 hdl
            have hres : erase_at (node (node ll lv lsz lr) v sz
                (node rl rv rsz rr)) [] =
                rebalE (node (node ll lv lsz lr) x2 (sz - 1) r2) true := by
              simp only [erase_at, if_pos hlt, hdl]
            rw [hres]
            refine ⟨?_, ?_, ?_⟩
            · rw [inorder_rebalE, pathIdx_root]
              simp only [inorder_node] at hio ⊢
              rw [List.eraseIdx_append_of_length_le (le_refl _)]
              simp only [Nat.sub_self, List.eraseIdx_cons_zero]
              rw [hio]
            · rw [size0_rebalE, size0_node, size0_node]
            · apply sizesOkB_rebalE
              rw [sizesOkB_node_iff]
              refine ⟨?_, h2, hok2⟩
              simp only [size0_node] at h1 hsz2 hlt ⊢
              omega
          · obtain ⟨x2, l2, hdl⟩ := del_rightmost_some ll lv lsz lr
            obtain ⟨hio, hsz2, hok2⟩ := del_rightmost_spec h2 hdl
            have hres : erase_at (node (node ll lv lsz lr) v sz
                (node rl rv rsz rr)) [] =
                rebalE (node l2 x2 (sz - 1) (node rl rv rsz rr)) false := by
              simp only [erase_at, if_neg hlt, hdl]
            rw [hres]
            refine ⟨?_, ?_, ?_⟩
            · rw [inorder_rebalE, pathIdx_root]
              simp only [inorder_node] at hio ⊢
              rw [List.eraseIdx_append_of_length_le (le_refl _)]
              simp only [Nat.sub_self, List.eraseIdx_cons_zero]
              rw [hio, List.append_assoc, List.singleton_append]
            · rw [size0_rebalE, size0_node, size0_node]
            · apply sizesOkB_rebalE
              rw [sizesOkB_node_iff]
              refine ⟨?_, hok2, h3⟩
              have hlsz : lsz = size0 ll + size0 lr + 1 := by
                rw [sizesOkB_node_iff] at h2
                simpa using h2.1
              simp only [size0_node] at h1 hsz2 hlt ⊢
              omega
    | cons d p2 =>
      cases d with
      | false =>
        rw [valueAt_cons_false] at h
        obtain ⟨hio, hsz2, hok2⟩ := ihl h2 h
        have hlt := pathIdx_lt_length h
        have hres : erase_at (node l v sz r) (false :: p2) =
            rebalE (node (erase_at l p2) v (sz - 1) r) false := by
          simp only [erase_at]
        rw [hres]
        have hlnil : l ≠ nil := valueAt_node_ne_nil h
        have hl1 : 1 ≤ size0 l := by
          cases l with
          | nil => exact absurd rfl hlnil
          | node a b c d2 =>
            rw [sizesOkB_node_iff] at h2
            have := h2.1
            simp only [size0_node]
            omega
        refine ⟨?_, ?_, ?_⟩
        · rw [inorder_rebalE, pathIdx_cons_false]
          simp only [inorder_node]
          rw [List.eraseIdx_append_of_lt_length hlt, hio]
        · rw [size0_rebalE, size0_node, size0_node]
        · apply sizesOkB_rebalE
          rw [sizesOkB_node_iff]
          refine ⟨?_, hok2, h3⟩
          omega
      | true =>
        rw [valueAt_cons_true] at h
        obtain ⟨hio, hsz2, hok2⟩ := ihr h3 h
        have hres : erase_at (node l v sz r) (true :: p2) =
            rebalE (node l v (sz - 1) (erase_at r p2)) true := by
          simp only [erase_at]
        rw [hres]
        have hrnil : r ≠ nil := valueAt_node_ne_nil h
        have hr1 : 1 ≤ size0 r := by
          cases r with
          | nil => exact absurd rfl hrnil
          | node a b c d2 =>
            rw [sizesOkB_node_iff] at h3
            have := h3.1
            simp only [size0_node]
            omega
        refine ⟨?_, ?_, ?_⟩
        · rw [inorder_rebalE, pathIdx_cons_true]
          simp only [inorder_node]
          rw [hio, List.eraseIdx_append_of_length_le (by omega)]
          have hidx : (inorder l).length + 1 + pathIdx r p2 -
              (inorder l).length = pathIdx r p2 + 1 := by omega
          rw [hidx, List.eraseIdx_cons_succ]
        · rw [size0_rebalE, size0_node, size0_node]
        · apply sizesOkB_rebalE
          rw [sizesOkB_node_iff]
          refine ⟨?_, h2, hok2⟩
          omega

/-! ### Iterator increment: the begin()-to-end() walk visits exactly
the in-order sequence -/

theorem leftSpine_spec {t : STree α} (ht : t ≠ nil) :
    pathIdx t (leftSpine t) = 0 ∧ ∃ y, valueAt t (leftSpine t) = some y := by
  induction t with
  | nil => exact absurd rfl ht
  | node l v sz r ihl ihr =>
    cases l with
    | nil => exact ⟨rfl, v, rfl⟩
    | node ll lv lsz lr =>
      obtain ⟨hp, y, hv⟩ := ihl (by simp)
      constructor
      · simpa only [leftSpine, pathIdx_cons_false] using hp
      · exact ⟨y, by simpa only [leftSpine, valueAt_cons_false] using hv⟩

theorem succPath_spec {t : STree α} : ∀ {p : List Bool} {x : α},
    valueAt t p = some x →
      (∀ q, succPath t p = some q →
          pathIdx t q = pathIdx t p + 1 ∧ ∃ y, valueAt t q = some y) ∧
      (succPath t p = none → pathIdx t p + 1 = (inorder t).length) := by
  induction t with
  | nil =>
    intro p x h
    rw [valueAt_nil_eq_none] at h
    exact absurd h (by simp)
  | node l v sz r ihl ihr =>
    intro p x h
    cases p with
    | nil =>
      constructor
      · intro q hq
        cases r with
        | nil => simp [succPath] at hq
        | node rl rv rsz rr =>
          simp only [succPath, Option.some.injEq] at hq
          subst hq
          obtain ⟨hp0, y, hy⟩ :=
            leftSpine_spec (show (node rl rv rsz rr : STree α) ≠ nil by simp)
          refine ⟨?_, y, ?_⟩
          · rw [pathIdx_cons_true, hp0, pathIdx_root]
          · rw [valueAt_cons_true]
            exact hy
      · intro hq
        cases r with
        | nil =>
          rw [pathIdx_root, inorder_node]
          simp [inorder]
        | node rl rv rsz rr => simp [succPath] at hq
    | cons d p2 =>
      cases d with
      | false =>
        rw [valueAt_cons_false] at h
        obtain ⟨ihs, ihn⟩ := ihl h
        constructor
        · intro q hq
          simp only [succPath] at hq
          rcases hs2 : succPath l p2 with _ | q2
          · rw [hs2] at hq
            simp only [Option.some.injEq] at hq
            subst hq
            refine ⟨?_, v, valueAt_root _ _ _ _⟩
            rw [pathIdx_root, pathIdx_cons_false]
            have := ihn hs2
            omega
          · rw [hs2] at hq
            simp only [Option.some.injEq] at hq
            subst hq
            obtain ⟨hidx, y, hy⟩ := ihs q2 hs2
            refine ⟨?_, y, ?_⟩
            · rw [pathIdx_cons_false, pathIdx_cons_false, hidx]
            · rw [valueAt_cons_false]
              exact hy
        · intro hq
          simp only [succPath] at hq
          rcases hs2 : succPath l p2 with _ | q2
          · rw [hs2] at hq
            simp at hq
          · rw [hs2] at hq
            simp at hq
      | true =>
        rw [valueAt_cons_true] at h
        obtain ⟨ihs, ihn⟩ := ihr h
        constructor
        · intro q hq
          simp only [succPath] at hq
          rcases hs2 : succPath r p2 with _ | q2
          · rw [hs2] at hq
            simp at hq
          · rw [hs2] at hq
            simp only [Option.some.injEq] at hq
            subst hq
            obtain ⟨hidx, y, hy⟩ := ihs q2 hs2
            refine ⟨?_, y, ?_⟩
            · rw [pathIdx_cons_true, pathIdx_cons_true, hidx]
              omega
            · rw [valueAt_cons_true]
              exact hy
        · intro hq
          simp only [succPath] at hq
          rcases hs2 : succPath r p2 with _ | q2
          · rw [pathIdx_cons_true, inorder_node]
            have := ihn hs2
            simp only [List.length_append, List.length_cons]
            omega
          · rw [hs2] at hq
            simp at hq

theorem walkFrom_drop {t : STree α} : ∀ (fuel : Nat) {p : List Bool} {x : α},
    valueAt t p = some x → (inorder t).length ≤ pathIdx t p + fuel →
    walkFrom fuel t (some p) = (inorder t).drop (pathIdx t p) := by
  intro fuel
  induction fuel with
  | zero =>
    intro p x h hf
    have := pathIdx_lt_length h
    exact absurd this (by omega)
  | succ fuel ih =>
    intro p x h hf
    have hlt := pathIdx_lt_length h
    have hget := valueAt_getElem h
    simp only [walkFrom, h]
    rw [List.drop_eq_getElem_cons hlt]
    have hx : (inorder t)[pathIdx t p] = x := by
      rw [List.getElem?_eq_getElem hlt, Option.some.injEq] at hget
      exact hget
    rw [hx]
    congr 1
    rcases hs : succPath t p with _ | q
    · have hend := (succPath_spec h).2 hs
      rw [hend, List.drop_length]
      cases fuel <;> rfl
    · obtain ⟨hidx, y, hy⟩ := (succPath_spec h).1 q hs
      rw [ih hy (by omega), hidx]

theorem walkAll_eq_inorder (t : STree α) : walkAll t = inorder t := by
  cases t with
  | nil => rfl
  | node l v sz r =>
    obtain ⟨hp0, y, hy⟩ :=
      leftSpine_spec (show (node l v sz r : STree α) ≠ nil by simp)
    rw [walkAll,
      show startPos (node l v sz r) = some (leftSpine (node l v sz r)) from
        rfl,
      walkFrom_drop _ hy (by rw [hp0]; omega), hp0, List.drop_zero]

/-! ### List-level facts about counting, filtering and sorted lists -/

theorem filter_ne_of_notmem {L : List α} {key : α} (h : key ∉ L) :
    L.filter (fun z => decide (z ≠ key)) = L := by
  apply List.filter_eq_self.mpr
  intro a ha
  simp only [decide_eq_true_eq]
  intro h2
  exact h (h2 ▸ ha)

theorem countP_le_split (key : α) (L : List α) :
    L.countP (fun z => decide (z ≤ key)) =
      L.countP (fun z => decide (z < key)) + L.count key := by
  induction L with
  | nil => rfl
  | cons a L ih =>
    rw [List.countP_cons, List.countP_cons, List.count_cons, ih]
    rcases lt_trichotomy a key with h1 | h1 | h1
    · rw [if_pos (by simpa using le_of_lt h1), if_pos (by simpa using h1),
        if_neg (by simp [h1.ne])]
      omega
    · subst h1
      rw [if_pos (by simp), if_neg (by simp), if_pos (by simp)]
      omega
    · rw [if_neg (by simpa using not_le.mpr h1),
        if_neg (by simpa using not_lt.mpr (le_of_lt h1)),
        if_neg (by simp [h1.ne.symm])]
      omega

theorem sorted_getElem_countP_lt {L : List α}
    (hsort : List.Sorted (· ≤ ·) L) {key : α} (hk : key ∈ L) :
    L[L.countP (fun z => decide (z < key))]? = some key := by
  induction L with
  | nil => simp at hk
  | cons a L ih =>
    rw [List.sorted_cons] at hsort
    obtain ⟨ha, hs⟩ := hsort
    rw [List.countP_cons]
    by_cases hak : a < key
    · have hk2 : key ∈ L := by
        rcases List.mem_cons.mp hk with h2 | h2
        · exact absurd (h2 ▸ hak) (lt_irrefl key)
        · exact h2
      rw [if_pos (by simpa using hak), List.getElem?_cons_succ]
      exact ih hs hk2
    · have hz : L.countP (fun z => decide (z < key)) = 0 := by
        rw [List.countP_eq_zero]
        intro z hz2
        simp only [decide_eq_true_eq]
        intro h3
        exact hak (lt_of_le_of_lt (ha z hz2) h3)
      rw [if_neg (by simpa using hak), hz]
      have hka : a = key := by
        rcases List.mem_cons.mp hk with h2 | h2
        · exact h2.symm
        · exact le_antisymm (ha key h2) (not_lt.mp hak)
      simp [hka]

theorem eraseIdx_at_key {L : List α} {i : Nat} {key : α}
    (h : L[i]? = some key) :
    (L.eraseIdx i).filter (fun z => decide (z ≠ key)) =
        L.filter (fun z => decide (z ≠ key)) ∧
      (L.eraseIdx i).count key + 1 = L.count key ∧
      (L.eraseIdx i).length + 1 = L.length := by
  obtain ⟨hlt, hget⟩ := List.getElem?_eq_some.mp h
  have hsplit : L = L.take i ++ key :: L.drop (i + 1) := by
    conv_lhs => rw [← List.take_append_drop i L]
    rw [List.drop_eq_getElem_cons hlt, hget]
  rw [List.eraseIdx_eq_take_drop_succ]
  refine ⟨?_, ?_, ?_⟩
  · conv_rhs => rw [hsplit]
    rw [List.filter_append, List.filter_append, List.filter_cons]
    simp
  · conv_rhs => rw [hsplit]
    rw [List.count_append, List.count_append, List.count_cons]
    simp
    omega
  · conv_rhs => rw [hsplit]
    simp only [List.length_append, List.length_cons]
    have : i + 1 ≤ L.length := hlt
    simp [List.length_take, List.length_drop]
    omega

theorem sorted_find?_ge {L : List α} (hsort : List.Sorted (· ≤ ·) L)
    {key : α} (hk : key ∈ L) :
    L.find? (fun z => decide (key ≤ z)) = some key := by
  induction L with
  | nil => simp at hk
  | cons a L ih =>
    rw [List.sorted_cons] at hsort
    obtain ⟨ha, hs⟩ := hsort
    by_cases hka : key ≤ a
    · rw [List.find?_cons_of_pos _ (by simpa using hka)]
      have : a = key := by
        rcases List.mem_cons.mp hk with h2 | h2
        · exact h2.symm
        · exact le_antisymm (not_lt.mp (fun h3 =>
            (not_le.mpr h3) (ha key h2))) hka
      rw [this]
    · have hk2 : key ∈ L := by
        rcases List.mem_cons.mp hk with h2 | h2
        · exact absurd (h2 ▸ le_refl key) hka
        · exact h2
      rw [List.find?_cons_of_neg _ (by simpa using hka)]
      exact ih hs hk2

theorem countP_lt_getElem_nodup {L : List α}
    (hsort : List.Sorted (· ≤ ·) L) (hnd : L.Nodup) :
    ∀ {k : Nat} {x : α}, L[k]? = some x →
      L.countP (fun z => decide (z < x)) = k := by
  have hlt : List.Pairwise (· < ·) L := by
    have := List.Pairwise.and hsort hnd
    exact this.imp (fun h => lt_of_le_of_ne h.1 h.2)
  clear hsort hnd
  induction L with
  | nil => intro k x h; simp at h
  | cons a L ih =>
    rw [List.pairwise_cons] at hlt
    obtain ⟨ha, hL⟩ := hlt
    intro k x h
    cases k with
    | zero =>
      simp only [List.getElem?_cons_zero, Option.some.injEq] at h
      subst h
      rw [List.countP_cons, if_neg (by simp), List.countP_eq_zero.mpr]
      intro z hz
      simp only [decide_eq_true_eq]
      exact not_lt.mpr (le_of_lt (ha z hz))
    | succ k =>
      rw [List.getElem?_cons_succ] at h
      have hx : x ∈ L := List.getElem?_mem h
      rw [List.countP_cons, if_pos (by simpa using ha x hx), ih hL h]

/-! ### select_node: the order statistic is exactly indexing into the
in-order sequence -/

theorem select_node_getElem {t : STree α} (hs : sizesOkB t = true) :
    ∀ k, select_node t k = (inorder t)[k]? := by
  induction t with
  | nil => intro k; simp [select_node, inorder]
  | node l v sz r ihl ihr =>
    intro k
    rw [sizesOkB_node_iff] at hs
    obtain ⟨h1, h2, h3⟩ := hs
    have hlen := size0_eq_length h2
    simp only [select_node, inorder_node]
    by_cases hgt : size0 l < k
    · rw [if_pos hgt, ihr h3, List.getElem?_append_right (by omega)]
      have hk1 : k - (inorder l).length = k - (inorder l).length - 1 + 1 := by
        omega
      rw [hk1, List.getElem?_cons_succ]
      congr 1
      omega
    · rw [if_neg hgt]
      by_cases hlt2 : k < size0 l
      · rw [if_pos hlt2, ihl h2, List.getElem?_append, if_pos (by omega)]
      · rw [if_neg hlt2, List.getElem?_append_right (by omega)]
        have hk0 : k - (inorder l).length = 0 := by omega
        rw [hk0, List.getElem?_cons_zero]

theorem selPath_valid {t : STree α} : ∀ {k : Nat} {p : List Bool},
    selPath t k = some p → ∃ x, valueAt t p = some x := by
  induction t with
  | nil => intro k p h; simp [selPath] at h
  | node l v sz r ihl ihr =>
    intro k p h
    simp only [selPath] at h
    by_cases hgt : size0 l < k
    · rw [if_pos hgt] at h
      rcases hs2 : selPath r (k - (size0 l + 1)) with _ | q
      · rw [hs2] at h
        simp at h
      · rw [hs2] at h
        simp only [Option.some.injEq] at h
        subst h
        obtain ⟨x, hx⟩ := ihr hs2
        exact ⟨x, by rw [valueAt_cons_true]; exact hx⟩
    · rw [if_neg hgt] at h
      by_cases hlt2 : k < size0 l
      · rw [if_pos hlt2] at h
        rcases hs2 : selPath l k with _ | q
        · rw [hs2] at h
          simp at h
        · rw [hs2] at h
          simp only [Option.some.injEq] at h
          subst h
          obtain ⟨x, hx⟩ := ihl hs2
          exact ⟨x, by rw [valueAt_cons_false]; exact hx⟩
      · rw [if_neg hlt2] at h
        simp only [Option.some.injEq] at h
        subst h
        exact ⟨v, valueAt_root _ _ _ _⟩

/-! ### lower_bound_node and upper_bound_node on sorted trees -/

theorem lb_eq_ub_of_notmem {t : STree α} {key : α}
    (h : key ∉ inorder t) : lbPath t key = ubPath t key := by
  induction t with
  | nil => rfl
  | node l v sz r ihl ihr =>
    rw [inorder_node] at h
    have hl : key ∉ inorder l := fun h2 =>
      h (List.mem_append.mpr (Or.inl h2))
    have hr : key ∉ inorder r := fun h2 =>
      h (List.mem_append.mpr (Or.inr (List.mem_cons.mpr (Or.inr h2))))
    have hv : key ≠ v := fun h2 =>
      h (List.mem_append.mpr (Or.inr (List.mem_cons.mpr (Or.inl h2))))
    simp only [lbPath, ubPath]
    by_cases hvk : v < key
    · rw [if_pos hvk, if_neg (asymm hvk), ihr hr]
    · have hkv : key < v := lt_of_le_of_ne (not_lt.mp hvk) hv
      rw [if_neg hvk, if_pos hkv, ihl hl]

theorem lbPath_valid {t : STree α} : ∀ {key : α} {p : List Bool},
    lbPath t key = some p → ∃ x, valueAt t p = some x := by
  induction t with
  | nil => intro key p h; simp [lbPath] at h
  | node l v sz r ihl ihr =>
    intro key p h
    simp only [lbPath] at h
    by_cases hvk : v < key
    · rw [if_pos hvk] at h
      rcases hlb : lbPath r key with _ | q
      · rw [hlb] at h
        simp at h
      · rw [hlb] at h
        simp only [Option.some.injEq] at h
        subst h
        obtain ⟨x, hx⟩ := ihr hlb
        exact ⟨x, by rw [valueAt_cons_true]; exact hx⟩
    · rw [if_neg hvk] at h
      rcases hlb : lbPath l key with _ | q
      · rw [hlb] at h
        simp only [Option.some.injEq] at h
        subst h
        exact ⟨v, valueAt_root _ _ _ _⟩
      · rw [hlb] at h
        simp only [Option.some.injEq] at h
        subst h
        obtain ⟨x, hx⟩ := ihl hlb
        exact ⟨x, by rw [valueAt_cons_false]; exact hx⟩

theorem lbPath_none_forall {t : STree α}
    (hsort : List.Sorted (· ≤ ·) (inorder t)) {key : α}
    (h : lbPath t key = none) : ∀ z ∈ inorder t, z < key := by
  induction t with
  | nil => intro z hz; simp [inorder] at hz
  | node l v sz r ihl ihr =>
    rw [inorder_node] at hsort ⊢
    obtain ⟨hA, hB, hAv, hvB⟩ := sorted_parts hsort
    simp only [lbPath] at h
    by_cases hvk : v < key
    · rw [if_pos hvk] at h
      rcases hlb : lbPath r key with _ | q
      · intro z hz
        rcases List.mem_append.mp hz with h2 | h2
        · exact lt_of_le_of_lt (hAv z h2) hvk
        · rcases List.mem_cons.mp h2 with h3 | h3
          · exact h3 ▸ hvk
          · exact ihr hB hlb z h3
      · rw [hlb] at h
        simp at h
    · rw [if_neg hvk] at h
      rcases hlb : lbPath l key with _ | q <;> rw [hlb] at h <;> simp at h

theorem lbPath_some_idx {t : STree α}
    (hsort : List.Sorted (· ≤ ·) (inorder t)) :
    ∀ {key : α} {p : List Bool}, lbPath t key = some p →
      pathIdx t p = (inorder t).countP (fun z => decide (z < key)) := by
  induction t with
  | nil => intro key p h; simp [lbPath] at h
  | node l v sz r ihl ihr =>
    intro key p h
    rw [inorder_node] at hsort
    obtain ⟨hA, hB, hAv, hvB⟩ := sorted_parts hsort
    simp only [lbPath] at h
    rw [inorder_node, List.countP_append, List.countP_cons]
    by_cases hvk : v < key
    · rw [if_pos hvk] at h
      rcases hlb : lbPath r key with _ | q
      · rw [hlb] at h
        simp at h
      · rw [hlb] at h
        simp only [Option.some.injEq] at h
        subst h
        rw [pathIdx_cons_true, ihr hB hlb]
        have hall : (inorder l).countP (fun z => decide (z < key)) =
            (inorder l).length := by
          apply List.countP_eq_length.mpr
          intro z hz
          simpa using lt_of_le_of_lt (hAv z hz) hvk
        rw [hall, if_pos (by simpa using hvk)]
        omega
    · rw [if_neg hvk] at h
      have hr0 : (inorder r).countP (fun z => decide (z < key)) = 0 := by
        rw [List.countP_eq_zero]
        intro z hz
        simp only [decide_eq_true_eq]
        exact fun h2 => hvk (lt_of_le_of_lt (hvB z hz) h2)
      rcases hlb : lbPath l key with _ | q
      · rw [hlb] at h
        simp only [Option.some.injEq] at h
        subst h
        rw [pathIdx_root]
        have hall : (inorder l).countP (fun z => decide (z < key)) =
            (inorder l).length := by
          apply List.countP_eq_length.mpr
          intro z hz
          simpa using lbPath_none_forall hA hlb z hz
        rw [hall, hr0, if_neg (by simpa using hvk)]
        omega
      · rw [hlb] at h
        simp only [Option.some.injEq] at h
        subst h
        rw [pathIdx_cons_false, ihl hA hlb, hr0,
          if_neg (by simpa using hvk)]
        omega

theorem ubPath_none_forall {t : STree α}
    (hsort : List.Sorted (· ≤ ·) (inorder t)) {key : α}
    (h : ubPath t key = none) : ∀ z ∈ inorder t, z ≤ key := by
  induction t with
  | nil => intro z hz; simp [inorder] at hz
  | node l v sz r ihl ihr =>
    rw [inorder_node] at hsort ⊢
    obtain ⟨hA, hB, hAv, hvB⟩ := sorted_parts hsort
    simp only [ubPath] at h
    by_cases hkv : key < v
    · rw [if_pos hkv] at h
      rcases hub : ubPath l key with _ | q <;> rw [hub] at h <;> simp at h
    · rw [if_neg hkv] at h
      rcases hub : ubPath r key with _ | q
      · intro z hz
        rcases List.mem_append.mp hz with h2 | h2
        · exact le_trans (hAv z h2) (not_lt.mp hkv)
        · rcases List.mem_cons.mp h2 with h3 | h3
          · exact h3 ▸ not_lt.mp hkv
          · exact ihr hB hub z h3
      · rw [hub] at h
        simp at h

theorem ubPath_some_idx {t : STree α}
    (hsort : List.Sorted (· ≤ ·) (inorder t)) :
    ∀ {key : α} {p : List Bool}, ubPath t key = some p →
      pathIdx t p = (inorder t).countP (fun z => decide (z ≤ key)) := by
  induction t with
  | nil => intro key p h; simp [ubPath] at h
  | node l v sz r ihl ihr =>
    intro key p h
    rw [inorder_node] at hsort
    obtain ⟨hA, hB, hAv, hvB⟩ := sorted_parts hsort
    simp only [ubPath] at h
    rw [inorder_node, List.countP_append, List.countP_cons]
    by_cases hkv : key < v
    · rw [if_pos hkv] at h
      have hr0 : (inorder r).countP (fun z => decide (z ≤ key)) = 0 := by
        rw [List.countP_eq_zero]
        intro z hz
        simp only [decide_eq_true_eq]
        exact fun h2 => (not_le.mpr hkv) (le_trans (hvB z hz) h2)
      rcases hub : ubPath l key with _ | q
      · rw [hub] at h
        simp only [Option.some.injEq] at h
        subst h
        rw [pathIdx_root]
        have hall : (inorder l).countP (fun z => decide (z ≤ key)) =
            (inorder l).length := by
          apply List.countP_eq_length.mpr
          intro z hz
          simpa using ubPath_none_forall hA hub z hz
        rw [hall, hr0, if_neg (by simpa using not_le.mpr hkv)]
        omega
      · rw [hub] at h
        simp only [Option.some.injEq] at h
        subst h
        rw [pathIdx_cons_false, ihl hA hub, hr0,
          if_neg (by simpa using not_le.mpr hkv)]
        omega
    · rw [if_neg hkv] at h
      rcases hub : ubPath r key with _ | q
      · rw [hub] at h
        simp at h
      · rw [hub] at h
        simp only [Option.some.injEq] at h
        subst h
        rw [pathIdx_cons_true, ihr hB hub]
        have hall : (inorder l).countP (fun z => decide (z ≤ key)) =
            (inorder l).length := by
          apply List.countP_eq_length.mpr
          intro z hz
          simpa using le_trans (hAv z hz) (not_lt.mp hkv)
        rw [hall, if_pos (by simpa using not_lt.mp hkv)]
        omega

theorem lb_ne_ub_of_mem {t : STree α}
    (hsort : List.Sorted (· ≤ ·) (inorder t)) {key : α}
    (hmem : key ∈ inorder t) : lbPath t key ≠ ubPath t key := by
  have hcnt : 0 < (inorder t).count key := List.count_pos_iff.mpr hmem
  have hsplit := countP_le_split key (inorder t)
  rcases hlb : lbPath t key with _ | p
  · have := lbPath_none_forall hsort hlb key hmem
    exact absurd this (lt_irrefl key)
  · rcases hub : ubPath t key with _ | q
    · simp
    · intro h
      simp only [Option.some.injEq] at h
      subst h
      have h1 := lbPath_some_idx hsort hlb
      have h2 := ubPath_some_idx hsort hub
      rw [h1] at h2
      omega

/-! ### erase(key): the loop over [lower_bound, upper_bound) removes
exactly the elements equivalent to the key -/

theorem erase_key_go_spec {key : α} : ∀ (fuel : Nat) {t : STree α},
    sizesOkB t = true → List.Sorted (· ≤ ·) (inorder t) →
    (inorder t).count key ≤ fuel →
    inorder (erase_key_go fuel t key).1 =
        (inorder t).filter (fun z => decide (z ≠ key)) ∧
      (erase_key_go fuel t key).2 = (inorder t).count key ∧
      size0 (erase_key_go fuel t key).1 =
        size0 t - (inorder t).count key ∧
      sizesOkB (erase_key_go fuel t key).1 = true ∧
      List.Sorted (· ≤ ·) (inorder (erase_key_go fuel t key).1) := by
  intro fuel
  induction fuel with
  | zero =>
    intro t hs hsort hc
    have hc0 : (inorder t).count key = 0 := by omega
    have hnot : key ∉ inorder t := List.count_eq_zero.mp hc0
    simp only [erase_key_go]
    exact ⟨(filter_ne_of_notmem hnot).symm, hc0.symm, by simp [hc0], hs,
      hsort⟩
  | succ fuel ih =>
    intro t hs hsort hc
    by_cases hguard : lbPath t key = ubPath t key
    · have hnot : key ∉ inorder t := by
        intro hmem
        exact lb_ne_ub_of_mem hsort hmem hguard
      have hc0 : (inorder t).count key = 0 := List.count_eq_zero.mpr hnot
      simp only [erase_key_go, if_pos hguard]
      exact ⟨(filter_ne_of_notmem hnot).symm, hc0.symm, by simp [hc0], hs,
        hsort⟩
    · have hmem : key ∈ inorder t := by
        by_contra hnm
        exact hguard (lb_eq_ub_of_notmem hnm)
      rcases hlb : lbPath t key with _ | p
      · exact absurd (lbPath_none_forall hsort hlb key hmem) (lt_irrefl key)
      · obtain ⟨y, hy⟩ := lbPath_valid hlb
        have hidx := lbPath_some_idx hsort hlb
        have hkeyget : (inorder t)[pathIdx t p]? = some key := by
          rw [hidx]
          exact sorted_getElem_countP_lt hsort hmem
        have hykey : y = key := by
          have h2 := valueAt_getElem hy
          rw [hkeyget, Option.some.injEq] at h2
          exact h2.symm
        rw [hykey] at hy
        obtain ⟨hioE, hszE, hokE⟩ := erase_at_spec hs hy
        obtain ⟨hfil, hcnt, hlen⟩ := eraseIdx_at_key hkeyget
        have hsort2 : List.Sorted (· ≤ ·) (inorder (erase_at t p)) := by
          rw [hioE]
          exact List.Pairwise.sublist (List.eraseIdx_sublist _ _) hsort
        have hcnt2 : (inorder (erase_at t p)).count key ≤ fuel := by
          rw [hioE]
          omega
        obtain ⟨ih1, ih2, ih3, ih4, ih5⟩ := ih hokE hsort2 hcnt2
        have hcL : 0 < (inorder t).count key := List.count_pos_iff.mpr hmem
        have hsl := size0_eq_length hs
        have hclen : (inorder t).count key ≤ (inorder t).length :=
          List.count_le_length _ _
        have hstep1 : (erase_key_go (fuel + 1) t key).1 =
            (erase_key_go fuel (erase_at t p) key).1 := by
          simp only [erase_key_go]
          rw [if_neg hguard, hlb]
        have hstep2 : (erase_key_go (fuel + 1) t key).2 =
            (erase_key_go fuel (erase_at t p) key).2 + 1 := by
          simp only [erase_key_go]
          rw [if_neg hguard, hlb]
        rw [hstep1, hstep2]
        refine ⟨?_, ?_, ?_, ih4, ih5⟩
        · rw [ih1, hioE, hfil]
        · rw [ih2, hioE]
          exact hcnt
        · rw [ih3, hszE, hioE]
          omega

theorem erase_key_spec {t : STree α} (hs : sizesOkB t = true)
    (hsort : List.Sorted (· ≤ ·) (inorder t)) (key : α) :
    inorder (erase_key t key).1 =
        (inorder t).filter (fun z => decide (z ≠ key)) ∧
      (erase_key t key).2 = (inorder t).count key ∧
      size0 (erase_key t key).1 = size0 t - (inorder t).count key ∧
      sizesOkB (erase_key t key).1 = true ∧
      List.Sorted (· ≤ ·) (inorder (erase_key t key).1) := by
  have hcl : (inorder t).count key ≤ size0 t := by
    rw [size0_eq_length hs]
    exact List.count_le_length _ _
  exact erase_key_go_spec (size0 t) hs hsort hcl

/-! ### The shared lower-bound descent of find_node and rank_node -/

theorem rankGo_spec {t : STree α} (hs : sizesOkB t = true)
    (hsort : List.Sorted (· ≤ ·) (inorder t)) (key : α) :
    rankGo t key = ((inorder t).countP (fun z => decide (z < key)),
      (inorder t).find? (fun z => decide (key ≤ z))) := by
  induction t with
  | nil => rfl
  | node l v sz r ihl ihr =>
    rw [sizesOkB_node_iff] at hs
    obtain ⟨h1, h2, h3⟩ := hs
    rw [inorder_node] at hsort
    obtain ⟨hA, hB, hAv, hvB⟩ := sorted_parts hsort
    rw [inorder_node] at *
    simp only [rankGo]
    rw [List.countP_append, List.countP_cons, List.find?_append]
    by_cases hvk : v < key
    · rw [if_pos hvk, ihr h3 hB]
      have hfA : (inorder l).find? (fun z => decide (key ≤ z)) = none := by
        rw [List.find?_eq_none]
        intro z hz
        simp only [decide_eq_true_eq]
        exact not_le.mpr (lt_of_le_of_lt (hAv z hz) hvk)
      have hcA : (inorder l).countP (fun z => decide (z < key)) =
          (inorder l).length := by
        apply List.countP_eq_length.mpr
        intro z hz
        simpa using lt_of_le_of_lt (hAv z hz) hvk
      rw [hfA, Option.none_or, hcA,
        List.find?_cons_of_neg _ (by simpa using not_le.mpr hvk),
        if_pos (by simpa using hvk), size0_eq_length h2]
      congr 1
      omega
    · rw [if_neg hvk, ihl h2 hA]
      have hcv : (if decide (v < key) = true then 1 else 0) = 0 := by
        simp [hvk]
      have hcB : (inorder r).countP (fun z => decide (z < key)) = 0 := by
        rw [List.countP_eq_zero]
        intro z hz
        simp only [decide_eq_true_eq]
        exact fun h4 => hvk (lt_of_le_of_lt (hvB z hz) h4)
      rw [hcv, hcB, List.find?_cons_of_pos _ (by simpa using not_lt.mp hvk)]
      rcases hf : (inorder l).find? (fun z => decide (key ≤ z)) with _ | w
      · simp
      · simp

theorem find_node_spec {t : STree α} (hs : sizesOkB t = true)
    (hsort : List.Sorted (· ≤ ·) (inorder t)) (key : α) :
    find_node t key = if key ∈ inorder t then some key else none := by
  rw [find_node, rankGo_spec hs hsort]
  by_cases hmem : key ∈ inorder t
  · rw [if_pos hmem, sorted_find?_ge hsort hmem]
    simp
  · rw [if_neg hmem]
    rcases hf : (inorder t).find? (fun z => decide (key ≤ z)) with _ | w
    · rfl
    · have hw1 : key ≤ w := by simpa using List.find?_some hf
      have hw2 : w ∈ inorder t := List.mem_of_find?_eq_some hf
      have hw3 : key ≠ w := fun h4 => hmem (h4 ▸ hw2)
      simp only [if_pos (lt_of_le_of_ne hw1 hw3)]

theorem rank_node_mem {t : STree α} (hs : sizesOkB t = true)
    (hsort : List.Sorted (· ≤ ·) (inorder t)) {key : α}
    (hmem : key ∈ inorder t) :
    rank_node t key =
      some ((inorder t).countP (fun z => decide (z < key))) := by
  rw [rank_node, rankGo_spec hs hsort, sorted_find?_ge hsort hmem]
  simp

/-! ### Every tree reachable from the empty tree by the public
operations has consistent size fields and a sorted in-order sequence -/

theorem applyOp_invariant {t : STree α} (h1 : sizesOkB t = true)
    (h2 : List.Sorted (· ≤ ·) (inorder t)) (op : SOp α) :
    sizesOkB (applyOp t op) = true ∧
      List.Sorted (· ≤ ·) (inorder (applyOp t op)) := by
  cases op with
  | insE x =>
    refine ⟨sizesOkB_insert_equal_node x h1, ?_⟩
    show List.Sorted (· ≤ ·) (inorder (insert_equal_node x t))
    rw [inorder_insert_equal_node x h2]
    exact sorted_upInsert x h2
  | insU x =>
    refine ⟨sizesOkB_insert_unique_node x h1, ?_⟩
    show List.Sorted (· ≤ ·) (inorder (insert_unique_node x t).1)
    by_cases hm : x ∈ inorder t
    · rw [insert_unique_node_mem x h2 hm]
      exact h2
    · obtain ⟨_, hio, _⟩ := insert_unique_node_notmem x h2 hm
      rw [hio]
      exact sorted_upInsert x h2
  | delK x =>
    obtain ⟨_, _, _, h4, h5⟩ := erase_key_spec h1 h2 x
    exact ⟨h4, h5⟩
  | delI k =>
    rcases hsp : selPath t k with _ | p
    · simp only [applyOp, hsp]
      exact ⟨h1, h2⟩
    · obtain ⟨x, hx⟩ := selPath_valid hsp
      obtain ⟨hio, _, hok⟩ := erase_at_spec h1 hx
      simp only [applyOp, hsp]
      refine ⟨hok, ?_⟩
      rw [hio]
      exact List.Pairwise.sublist (List.eraseIdx_sublist _ _) h2

theorem runOps_invariant (ops : List (SOp α)) :
    sizesOkB (runOps ops) = true ∧
      List.Sorted (· ≤ ·) (inorder (runOps ops)) := by
  suffices h : ∀ (t : STree α), sizesOkB t = true →
      List.Sorted (· ≤ ·) (inorder t) →
      sizesOkB (ops.foldl applyOp t) = true ∧
        List.Sorted (· ≤ ·) (inorder (ops.foldl applyOp t)) by
    exact h nil rfl (by simp [inorder])
  induction ops with
  | nil => intro t ha hb; exact ⟨ha, hb⟩
  | cons op ops ih =>
    intro t ha hb
    obtain ⟨h3, h4⟩ := applyOp_invariant ha hb op
    exact ih _ h3 h4

/-! ### The replacement node chosen by erase_node for a node with two
children -/

theorem del_leftmost_s_some (l : STree α) (v : α) (sz : Nat) (r : STree α) :
    ∃ x t2, del_leftmost_s (node l v sz r) = some (x, t2) := by
  induction l generalizing v sz r with
  | nil => exact ⟨v, r, rfl⟩
  | node ll lv lsz lr ihl ihr =>
    obtain ⟨x, t2, h⟩ := ihl lv lsz lr
    refine ⟨x, node t2 v (sz - 1) r, ?_⟩
    simp only [del_leftmost_s, h]

theorem del_rightmost_s_some (l : STree α) (v : α) (sz : Nat)
    (r : STree α) : ∃ x t2, del_rightmost_s (node l v sz r) = some (x, t2) := by
  induction r generalizing l v sz with
  | nil => exact ⟨v, l, rfl⟩
  | node rl rv rsz rr ihl ihr =>
    obtain ⟨x, t2, h⟩ := ihr rl rv rsz
    refine ⟨x, node l v (sz - 1) t2, ?_⟩
    simp only [del_rightmost_s, h]

theorem del_leftmost_s_leftmostVal {t : STree α} :
    ∀ {x : α} {t2 : STree α}, del_leftmost_s t = some (x, t2) →
      leftmostVal t = some x := by
  induction t with
  | nil => intro x t2 h; simp [del_leftmost_s] at h
  | node l v sz r ihl ihr =>
    intro x t2 h
    cases l with
    | nil =>
      simp only [del_leftmost_s, Option.some.injEq, Prod.mk.injEq] at h
      simp only [leftmostVal, Option.some.injEq]
      exact h.1
    | node ll lv lsz lr =>
      simp only [del_leftmost_s] at h
      rcases hdl : del_leftmost_s (node ll lv lsz lr) with _ | ⟨x2, l2⟩
      · rw [hdl] at h
        simp at h
      · rw [hdl] at h
        simp only [Option.some.injEq, Prod.mk.injEq] at h
        show leftmostVal (node ll lv lsz lr) = some x
        rw [ihl hdl]
        exact congrArg some h.1

theorem del_rightmost_s_rightmostVal {t : STree α} :
    ∀ {x : α} {t2 : STree α}, del_rightmost_s t = some (x, t2) →
      rightmostVal t = some x := by
  induction t with
  | nil => intro x t2 h; simp [del_rightmost_s] at h
  | node l v sz r ihl ihr =>
    intro x t2 h
    cases r with
    | nil =>
      simp only [del_rightmost_s, Option.some.injEq, Prod.mk.injEq] at h
      simp only [rightmostVal, Option.some.injEq]
      exact h.1
    | node rl rv rsz rr =>
      simp only [del_rightmost_s] at h
      rcases hdl : del_rightmost_s (node rl rv rsz rr) with _ | ⟨x2, r2⟩
      · rw [hdl] at h
        simp at h
      · rw [hdl] at h
        simp only [Option.some.injEq, Prod.mk.injEq] at h
        show rightmostVal (node rl rv rsz rr) = some x
        rw [ihr hdl]
        exact congrArg some h.1

/-! ## The claims -/

/-- C2: on every tree reachable by inserts and erases, walking from
begin() to end() by repeated iterator increment visits exactly the
stored elements in order, and the visited sequence is non-decreasing
under the comparator. -/
theorem C2_iterator_walk (ops : List (SOp α)) :
    walkAll (runOps ops) = inorder (runOps ops) ∧
      List.Sorted (· ≤ ·) (walkAll (runOps ops)) := by
  obtain ⟨_, h2⟩ := runOps_invariant ops
  refine ⟨walkAll_eq_inorder _, ?_⟩
  rw [walkAll_eq_inorder]
  exact h2

/-- C3: on every reachable tree, select_node returns the element at
0-indexed in-order position k, and the header (none, modelling end())
exactly when k is out of range; on the empty tree select(0) is end(). -/
theorem C3_select_order_statistic (ops : List (SOp α)) (k : Nat) :
    select_node (runOps ops) k = (inorder (runOps ops))[k]? ∧
      select_node (nil : STree α) 0 = none := by
  obtain ⟨h1, _⟩ := runOps_invariant ops
  exact ⟨select_node_getElem h1 k, rfl⟩

/-- C4: on every reachable tree, the rank of a stored key is the count
of elements strictly less than it (the 0-indexed position of its first
occurrence), and if no duplicate keys are present then
rank(select(k)) = k for every valid k. -/
theorem C4_rank_of_select (ops : List (SOp α)) (x : α)
    (hmem : x ∈ inorder (runOps ops)) :
    rank_node (runOps ops) x =
        some ((inorder (runOps ops)).countP (fun z => decide (z < x))) ∧
      ∀ k, select_node (runOps ops) k = some x →
        (inorder (runOps ops)).Nodup → rank_node (runOps ops) x = some k := by
  obtain ⟨h1, h2⟩ := runOps_invariant ops
  refine ⟨rank_node_mem h1 h2 hmem, ?_⟩
  intro k hsel hnd
  rw [select_node_getElem h1 k] at hsel
  rw [rank_node_mem h1 h2 hmem, countP_lt_getElem_nodup h2 hnd hsel]

/-- Witness for C4 at a concrete input: the tree 1,2,3 with x = 2 at
in-order position 1. -/
theorem C4_rank_of_select_witness :
    rank_node (runOps [SOp.insE 2, SOp.insE 1, SOp.insE (3 : Nat)]) 2 =
        some ((inorder (runOps [SOp.insE 2, SOp.insE 1,
          SOp.insE (3 : Nat)])).countP (fun z => decide (z < 2))) ∧
      ∀ k, select_node (runOps [SOp.insE 2, SOp.insE 1,
          SOp.insE (3 : Nat)]) k = some 2 →
        (inorder (runOps [SOp.insE 2, SOp.insE 1,
          SOp.insE (3 : Nat)])).Nodup →
        rank_node (runOps [SOp.insE 2, SOp.insE 1,
          SOp.insE (3 : Nat)]) 2 = some k :=
  C4_rank_of_select [SOp.insE 2, SOp.insE 1, SOp.insE 3] 2 (by decide)

/-- C5: on every reachable tree already containing an element
equivalent to x, insert_unique returns the tree completely unchanged
together with the existing key and a failure flag; in particular
unique-inserting the same key twice leaves the stored size unchanged
after the second call. -/
theorem C5_insert_unique_duplicate (ops : List (SOp α)) (x : α) :
    (x ∈ inorder (runOps ops) →
      insert_unique_node x (runOps ops) = (runOps ops, x, false)) ∧
    size0 (insert_unique_node x
        (insert_unique_node x (runOps ops)).1).1 =
      size0 (insert_unique_node x (runOps ops)).1 := by
  obtain ⟨h1, h2⟩ := runOps_invariant ops
  refine ⟨fun hmem => insert_unique_node_mem x h2 hmem, ?_⟩
  have hso1 : List.Sorted (· ≤ ·)
      (inorder (insert_unique_node x (runOps ops)).1) :=
    (applyOp_invariant h1 h2 (SOp.insU x)).2
  have hmem1 : x ∈ inorder (insert_unique_node x (runOps ops)).1 := by
    by_cases hm : x ∈ inorder (runOps ops)
    · rw [insert_unique_node_mem x h2 hm]
      exact hm
    · obtain ⟨_, hio, _⟩ := insert_unique_node_notmem x h2 hm
      rw [hio]
      exact (mem_upInsert x x _).mpr (Or.inl rfl)
  rw [insert_unique_node_mem x hso1 hmem1]

/-- C6 (amended): when erase_node removes a node with two children, the
replacement spliced into its position is the leftmost node of the right
subtree when size(left) is strictly smaller than size(right), and the
rightmost node of the left subtree otherwise — the opposite side to the
one the claim states. -/
theorem C6_erase_replacement (l : STree α) (v : α) (sz : Nat) (r : STree α)
    (hl : l ≠ nil) (hr : r ≠ nil) :
    rootVal (splice_at (node l v sz r) []) =
      if size0 l < size0 r then leftmostVal r else rightmostVal l := by
  cases l with
  | nil => exact absurd rfl hl
  | node ll lv lsz lr =>
    cases r with
    | nil => exact absurd rfl hr
    | node rl rv rsz rr =>
      by_cases hlt :
          size0 (node ll lv lsz lr) < size0 (node rl rv rsz rr)
      · obtain ⟨x, r2, hdl⟩ := del_leftmost_s_some rl rv rsz rr
        have hres : splice_at
            (node (node ll lv lsz lr) v sz (node rl rv rsz rr)) [] =
            node (node ll lv lsz lr) x (sz - 1) r2 := by
          simp only [splice_at, if_pos hlt, hdl]
        rw [hres, if_pos hlt, del_leftmost_s_leftmostVal hdl]
        rfl
      · obtain ⟨x, l2, hdl⟩ := del_rightmost_s_some ll lv lsz lr
        have hres : splice_at
            (node (node ll lv lsz lr) v sz (node rl rv rsz rr)) [] =
            node l2 x (sz - 1) (node rl rv rsz rr) := by
          simp only [splice_at, if_neg hlt, hdl]
        rw [hres, if_neg hlt, del_rightmost_s_rightmostVal hdl]
        rfl

/-- Witness for C6 at a concrete input: erasing the root of the tree
1,2,3 (both children present, equal sizes) splices in the rightmost
node of the left subtree. -/
theorem C6_erase_replacement_witness :
    rootVal (splice_at (node (node nil 1 1 nil) 2 3
        (node nil 3 1 nil) : STree Nat) []) =
      if size0 (node nil 1 1 nil : STree Nat) <
          size0 (node nil 3 1 nil : STree Nat) then
        leftmostVal (node nil 3 1 nil : STree Nat)
      else rightmostVal (node nil 1 1 nil : STree Nat) :=
  C6_erase_replacement (node nil 1 1 nil) 2 3 (node nil 3 1 nil)
    (by decide) (by decide)

/-- C6 counterexample to the wording of the claim: in the reachable
tree 1,2,3 the root has two children with size(left) >= size(right),
yet the replacement spliced in by the erase is the rightmost node of
the LEFT subtree (payload 1), not the leftmost node of the right
subtree (payload 3) as claimed. -/
theorem C6_claimed_choice_counterexample :
    size0 (rightT T123) ≤ size0 (leftT T123) ∧
      leftT T123 ≠ nil ∧ rightT T123 ≠ nil ∧
      leftmostVal (rightT T123) = some 3 ∧
      rightmostVal (leftT T123) = some 1 ∧
      rootVal (splice_at T123 []) = some 1 ∧
      rootVal (erase_at T123 []) = some 1 := by decide

/-- C7: in the reachable tree 1,2,3 the iterator at the root (payload
2, not the first element) is decremented to the node with payload 3,
not to the in-order predecessor 1: the guard of operator-- that is
meant to single out the sentinel also fires at the root, because header
and root are each other's parent, so the code returns the root's right
child.  Decrementing again returns to the root, so reverse iteration
cycles between 2 and 3. -/
theorem C7_decrement_at_root_bug :
    inorder T123 = [1, 2, 3] ∧
      valueAt T123 [] = some 2 ∧
      predStep T123 (IterPos.posOf []) = IterPos.posOf [true] ∧
      valueAt T123 [true] = some 3 ∧
      predStep T123 (IterPos.posOf [true]) = IterPos.posOf [] := by decide

/-- C8: on every reachable tree, erase by key removes exactly the
elements equivalent to the key, returns their count, and decreases the
stored size by that count; equal-inserting 2,2,2 into an empty tree
gives size 3, and erase(2) removes all three elements and returns 3. -/
theorem C8_erase_by_key :
    (∀ (ops : List (SOp α)) (key : α),
      inorder (erase_key (runOps ops) key).1 =
          (inorder (runOps ops)).filter (fun z => decide (z ≠ key)) ∧
        (erase_key (runOps ops) key).2 = (inorder (runOps ops)).count key ∧
        size0 (erase_key (runOps ops) key).1 =
          size0 (runOps ops) - (inorder (runOps ops)).count key) ∧
      size0 (runOps [SOp.insE 2, SOp.insE 2, SOp.insE (2 : Nat)]) = 3 ∧
      (erase_key (runOps [SOp.insE 2, SOp.insE 2, SOp.insE (2 : Nat)])
          2).2 = 3 ∧
      size0 (erase_key (runOps [SOp.insE 2, SOp.insE 2,
          SOp.insE (2 : Nat)]) 2).1 = 0 := by
  refine ⟨?_, by decide, by decide, by decide⟩
  intro ops key
  obtain ⟨h1, h2⟩ := runOps_invariant ops
  obtain ⟨ha, hb, hc, _, _⟩ := erase_key_spec h1 h2 key
  exact ⟨ha, hb, hc⟩

/-- C9: on every reachable tree, bounds-checked access by key fails
with the distinct uninitialized condition exactly when the tree is
empty, fails with the out-of-range condition exactly when the tree is
non-empty and no element equivalent to the key is present, and
otherwise returns the stored element equivalent to the key. -/
theorem C9_at_key_errors (ops : List (SOp α)) (key : α) :
    (atKey (runOps ops) key = Except.error AtErr.uninitialized ↔
        runOps ops = nil) ∧
      (atKey (runOps ops) key = Except.error AtErr.outOfRange ↔
        runOps ops ≠ nil ∧ key ∉ inorder (runOps ops)) ∧
      (key ∈ inorder (runOps ops) →
        atKey (runOps ops) key = Except.ok key) := by
  obtain ⟨h1, h2⟩ := runOps_invariant ops
  have hf := find_node_spec h1 h2 key
  rcases ht : runOps ops with _ | ⟨l, v, sz, r⟩
  · rw [ht] at hf
    refine ⟨by simp [atKey], by simp [atKey], ?_⟩
    intro hmem
    simp [inorder] at hmem
  · rw [ht] at hf
    by_cases hmem : key ∈ inorder (node l v sz r)
    · rw [if_pos hmem] at hf
      have hAt : atKey (node l v sz r) key = Except.ok key := by
        simp only [atKey, hf]
      exact ⟨by simp [hAt], by simp [hAt, hmem], fun _ => hAt⟩
    · rw [if_neg hmem] at hf
      have hAt : atKey (node l v sz r) key =
          Except.error AtErr.outOfRange := by
        simp only [atKey, hf]
      exact ⟨by simp [hAt], by simp [hAt, hmem],
        fun hm => absurd hm hmem⟩

/-- C10: erasing at the end() iterator (the header position, modelled
as none) is a no-op on every tree: the tree is returned unchanged — so
every node, every size field and the in-order sequence are untouched —
and the returned iterator is end(). -/
theorem C10_erase_end_noop (t : STree α) :
    erase_pos t none = (t, none) ∧
      inorder (erase_pos t none).1 = inorder t ∧
      size0 (erase_pos t none).1 = size0 t := ⟨rfl, rfl, rfl⟩

end STree

end SbTree
